import Mathlib

/-!
Verification development for the GraphRat simulator (C sources: rutil.c,
sim.c, graph.c, simutil.c, the partitioner in instrument/partition variants,
and crun.h).  The C code is shallowly embedded: machine integers become
Nat/Int with explicit wraparound where it matters, C doubles become exact
rationals (the algorithms under study perform only field operations and
comparisons on values that are exact in ℚ for the inputs considered;
transcendental helpers such as mweight, which calls log, are abstracted as
parameters where a claim does not depend on their value), arrays become
lists or total functions updated functionally, and loops become folds or
structural recursions mirroring the source line by line.
-/

namespace GraphRat

/-! ## Pseudo-random number generator (rutil.c) -/

/-- Constant GROUPSIZE from rutil.c: the modulus 2^31 - 1. -/
def GROUPSIZE : ℕ := 2147483647

/-- Constant MVAL from rutil.c. -/
def MVAL : ℕ := 48271

/-- Constant VVAL from rutil.c. -/
def VVAL : ℕ := 16807

/-- Constant INITSEED from rutil.c. -/
def INITSEED : ℕ := 418

/-- Embedding of rnext from rutil.c: computes
`val = ((x+1) * VVAL + seed * MVAL) % GROUPSIZE` in 64-bit arithmetic
(exact here because the operands fit well below 2^64), stores the value
back as the seed and returns it.  The returned value is both the new seed
and the drawn value, so we return a single natural number. -/
def rnext (seed x : ℕ) : ℕ :=
  ((x + 1) * VVAL + seed * MVAL) % GROUPSIZE

/-- Embedding of reseed from rutil.c: sets the seed to INITSEED, then folds
rnext over the list of seed values in order.  The incoming seed is
overwritten before use, exactly as in the C code, so it is an unused
argument of the embedding. -/
def reseed (seed : ℕ) (seed_list : List ℕ) : ℕ :=
  let _ := seed
  seed_list.foldl (fun s x => rnext s x) INITSEED

/-- Embedding of next_random_float from rutil.c: draws `val = rnext(seed, 0)`
and returns the pair of the updated seed and `val / GROUPSIZE * upperlimit`. -/
def next_random_float (seed : ℕ) (upperlimit : ℚ) : ℕ × ℚ :=
  let val := rnext seed 0
  (val, (val : ℚ) / (GROUPSIZE : ℚ) * upperlimit)

/-- Sequence of successive values drawn by repeated rnext calls with the
given inputs, starting from the given seed: the draw pattern of the claim
about reseed reproducibility. -/
def rnext_stream (seed : ℕ) : List ℕ → List ℕ
  | [] => []
  | x :: xs => rnext seed x :: rnext_stream (rnext seed x) xs

/-! ## Statistics helpers (rutil.c) -/

/-- Embedding of data_max from rutil.c: the accumulator starts at 0.0 and is
replaced whenever a strictly larger element is seen. -/
def data_max (data : List ℚ) : ℚ :=
  data.foldl (fun val x => if val < x then x else val) 0

/-! ## Linear partitioner (rutil.c) -/

/-- Sum of the weight subrange `[leftIndex, leftIndex + length)`, the inner
loop of segmentCost in rutil.c. -/
def segSum (w : List ℚ) (leftIndex length : ℕ) : ℚ :=
  ((w.drop leftIndex).take length).sum

/-- Embedding of segmentCost from rutil.c: the squared sum of a subrange of
the weights. -/
def segmentCost (w : List ℚ) (leftIndex length : ℕ) : ℚ :=
  segSum w leftIndex length * segSum w leftIndex length

/-- Accumulator step of the best-cost search in buildTable in rutil.c: the
candidate replaces the accumulator when `bestCost < 0` (the -1.0 sentinel)
or when the candidate cost is strictly smaller. -/
def updBest (acc cand : ℚ × ℕ) : ℚ × ℕ :=
  if acc.1 < 0 ∨ acc.1 > cand.1 then cand else acc

/-- Embedding of buildTable from rutil.c, with the memo tables elided: the
table entry for `(k, trimLength)` depends only on `(k, trimLength)` and the
weights, so the memoized computation equals this plain recursion.  For
`k = 1` the whole remaining prefix of `n = nweights - trimLength` weights
forms one partition; for larger `k` every admissible rightmost length
`rlen ∈ [1, n - k + 1]` is tried and the first strict minimum kept, exactly
as the C loop does starting from the `(-1.0, 0)` sentinel.  The result pair
is (lookupCost, lookupRlen) for that entry.  The value at `k = 0` is the
sentinel pair; the C code never reads such an entry. -/
def buildTable (w : List ℚ) : ℕ → ℕ → ℚ × ℕ
  | 0, _ => (-1, 0)
  | 1, trimLength =>
      let n := w.length - trimLength
      (segmentCost w 0 n, n)
  | (k + 2), trimLength =>
      let n := w.length - trimLength
      let cands := (List.range (n + 1 - (k + 2))).map (fun j =>
        let rlen := j + 1
        ((buildTable w (k + 1) (trimLength + rlen)).1 + segmentCost w (n - rlen) rlen, rlen))
      cands.foldl updBest (-1, 0)

/-- Embedding of construct_splits from rutil.c: walk from `(npartitions, 0)`
down to `k = 1`, writing the stored rightmost length into `splits[k-1]` and
growing the trim.  The list returned is the splits array in index order. -/
def construct_splits (w : List ℚ) : ℕ → ℕ → List ℕ
  | 0, _ => []
  | (k + 1), trimLength =>
      let rlen := (buildTable w (k + 1) trimLength).2
      construct_splits w k (trimLength + rlen) ++ [rlen]

/-- Embedding of find_partition from rutil.c: the two trivial cases
(`npartitions = 1` and `npartitions ≥ nweights`) are handled directly and
otherwise the dynamic-programming table is built and the splits read off. -/
def find_partition (w : List ℚ) (npartitions : ℕ) : List ℕ :=
  if npartitions = 1 then
    [w.length]
  else if npartitions ≥ w.length then
    (List.range npartitions).map (fun i => if i < w.length then 1 else 0)
  else
    construct_splits w npartitions 0

/-! ## Specification-side cost of a contiguous partition -/

/-- Totals of the contiguous blocks of `w` cut by the given block sizes,
read left to right. -/
def blockSums (w : List ℚ) : List ℕ → List ℚ
  | [] => []
  | s :: rest => (w.take s).sum :: blockSums (w.drop s) rest

/-- Sum over blocks of the squared block totals: the objective the
partitioner minimizes. -/
def splitsCost (w : List ℚ) (splits : List ℕ) : ℚ :=
  ((blockSums w splits).map (fun b => b * b)).sum

/-- Cost of a partition of the length-`n` prefix of `w`, with the block
sizes listed from the rightmost block inwards; this is the orientation in
which buildTable recurses. -/
def rcost (w : List ℚ) : ℕ → List ℕ → ℚ
  | _, [] => 0
  | n, r :: rest => segmentCost w (n - r) r + rcost w (n - r) rest

/-! ## Weighted sampling search (locate_value in sim.c) -/

/-- Constant BINARY_THRESHOLD from crun.h: the crossover between binary and
linear search. -/
def BINARY_THRESHOLD : ℤ := 4

/-- Embedding of locate_value_linear from sim.c: scan for the first index
whose entry strictly exceeds the target, returning -1 (an int in the C
code) when there is none. -/
def locate_value_linear (target : ℚ) : List ℚ → ℤ
  | [] => -1
  | x :: rest =>
      if target < x then 0
      else
        let r := locate_value_linear target rest
        if r < 0 then -1 else r + 1

/-- Embedding of the `while (left < right)` loop of locate_value from
sim.c.  The C ints `left` and `right` are embedded as ℤ; element access
uses getD with default 0 (in-range on every input the simulator passes).
Once the window is shorter than BINARY_THRESHOLD the linear scan runs on
the subarray `list + left` of length `right - left + 1`. -/
def locate_aux (target : ℚ) (l : List ℚ) (left right : ℤ) : ℤ :=
  if _h : left < right then
    if right - left + 1 < BINARY_THRESHOLD then
      left + locate_value_linear target ((l.drop left.toNat).take (right - left + 1).toNat)
    else
      let mid := left + (right - left) / 2
      if target < l.getD mid.toNat 0 then locate_aux target l left mid
      else locate_aux target l (mid + 1) right
  else right
termination_by (right - left).toNat
decreasing_by
  · simp only [BINARY_THRESHOLD] at *; omega
  · simp only [BINARY_THRESHOLD] at *; omega

/-- Embedding of locate_value from sim.c, entered with the full index
window `[0, len-1]`. -/
def locate_value (target : ℚ) (l : List ℚ) : ℤ :=
  locate_aux target l 0 ((l.length : ℤ) - 1)

/-- Composition predicate for the partitioner proofs: `l` lists `k`
strictly positive block sizes summing to `n`. -/
def Comp (l : List ℕ) (k n : ℕ) : Prop :=
  l.length = k ∧ (∀ x ∈ l, 1 ≤ x) ∧ l.sum = n

/-! ## Graph construction (read_graph in graph.c) -/

/-- Mutable state of the adjacency-building phase of read_graph: the
`neighbor` array (calloc of `nnode + nedge` ints), the `neighbor_start`
array (calloc of `nnode + 1` ints), the current node id `nid` (an int
starting at -1) and the running edge index `eid`. -/
structure AdjBuild where
  neighbor : List ℕ
  neighbor_start : List ℕ
  nid : ℤ
  eid : ℕ

/-- Body iterations of the inner `while (nid < hid)` loop of read_graph,
which starts the adjacency list of each new node with its self edge:
`nid++; neighbor_start[nid] = eid; neighbor[eid++] = nid`.  The loop runs
exactly `(hid - nid)⁺` times, which the wrapper below computes. -/
def fill_selfedges_go : AdjBuild → ℕ → AdjBuild
  | st, 0 => st
  | st, c + 1 =>
      let nid' := st.nid + 1
      fill_selfedges_go
        { neighbor := st.neighbor.set st.eid nid'.toNat,
          neighbor_start := st.neighbor_start.set nid'.toNat st.eid,
          nid := nid', eid := st.eid + 1 } c

/-- Inner `while (nid < hid)` loop of read_graph. -/
def fill_selfedges (st : AdjBuild) (hid : ℤ) : AdjBuild :=
  fill_selfedges_go st (hid - st.nid).toNat

/-- Edge-reading loop of read_graph: each line `e hid tid` is validated
(`hid` and `tid` in range, `hid` not below the current node) and then the
pending self edges are filled in before `neighbor[eid++] = tid` appends the
tail.  Ids are already naturals here, so the negative-id checks of the C
code are vacuous. -/
def process_edges (nnode : ℕ) : List (ℕ × ℕ) → AdjBuild → Option AdjBuild
  | [], st => some st
  | (hid, tid) :: rest, st =>
      if nnode ≤ hid then none
      else if nnode ≤ tid then none
      else if (hid : ℤ) < st.nid then none
      else
        let st1 := fill_selfedges st hid
        process_edges nnode rest
          { st1 with neighbor := st1.neighbor.set st1.eid tid, eid := st1.eid + 1 }

/-- Body iterations of the trailing `while (nid < nnode-1)` loop of
read_graph, commented `Fill out any isolated nodes`: it advances `nid` and
writes the self edge `neighbor[eid++] = nid`, but unlike the inner loop it
never stores `neighbor_start[nid]`.  The loop runs exactly
`(last - nid)⁺` times. -/
def fill_trailing_go : AdjBuild → ℕ → AdjBuild
  | st, 0 => st
  | st, c + 1 =>
      fill_trailing_go
        { st with neighbor := st.neighbor.set st.eid (st.nid + 1).toNat,
                  nid := st.nid + 1, eid := st.eid + 1 } c

/-- Trailing fill-out loop of read_graph. -/
def fill_trailing (st : AdjBuild) (last : ℤ) : AdjBuild :=
  fill_trailing_go st (last - st.nid).toNat

/-- Adjacency-construction portion of read_graph from graph.c: from the
grid dimensions and the edge list it produces the pair
`(neighbor, neighbor_start)`, or none when a validation check fails.  Both
arrays start zeroed (calloc); after the edges are consumed the trailing
isolated nodes are filled out and `neighbor_start[nnode] = eid` is
stored. -/
def read_graph (width height : ℕ) (edges : List (ℕ × ℕ)) : Option (List ℕ × List ℕ) :=
  let nnode := width * height
  let nedge := edges.length
  let st0 : AdjBuild :=
    ⟨List.replicate (nnode + nedge) 0, List.replicate (nnode + 1) 0, -1, 0⟩
  match process_edges nnode edges st0 with
  | none => none
  | some st =>
      let st1 := fill_trailing st ((nnode : ℤ) - 1)
      some (st1.neighbor, st1.neighbor_start.set nnode st1.eid)

/-! ## Graph and simulation state (crun.h, sim.c, simutil.c) -/

/-- Immutable core of graph_t from crun.h: node count, combined adjacency
vector (self edges included), starting index of each adjacency list, and
the per-node zone identifier.  C arrays of ints become a list (for the
adjacency data, whose partial views matter) and a total function (for the
zone ids). -/
structure graph_t where
  nnode : ℕ
  neighbor : List ℕ
  neighbor_start : List ℕ
  zone_id : ℕ → ℕ

/-- Per-node start index, as the C code reads `neighbor_start[i]`. -/
def nstart (g : graph_t) (i : ℕ) : ℕ :=
  g.neighbor_start.getD i 0

/-- Adjacency entries of node `nid` after the leading self edge: the index
range `[neighbor_start[nid]+1, neighbor_start[nid+1])` both passes of
setup_zone iterate. -/
def adjTail (g : graph_t) (nid : ℕ) : List ℕ :=
  (g.neighbor.drop (nstart g nid + 1)).take (nstart g (nid + 1) - (nstart g nid + 1))

/-- Accumulated state of pass two of setup_zone: the viewed_nodes bit
vector and the per-zone import and export lists. -/
structure ZoneAcc where
  viewed_nodes : ℕ → Bool
  ( import_node_list : ℕ → List ℕ)
  export_node_list : ℕ → List ℕ

/-- Inner loop of pass two of setup_zone over the adjacency tail of local
node `nid`: an external neighbor not yet viewed is appended to the import
list of its zone and marked viewed; `nid` itself is appended to the export
list of the neighbor's zone unless the reverse_viewed_nodes bitmap (here
`expflag`, indexed per local node and hence fresh for each `nid`) already
records an export to that zone. -/
def procStep (this_zone : ℕ) (zone : ℕ → ℕ) (nid onid : ℕ) (acc : ZoneAcc)
    (expflag : ℕ → Bool) : ZoneAcc × (ℕ → Bool) :=
  let ozid := zone onid
  let acc1 :=
    if ozid ≠ this_zone ∧ acc.viewed_nodes onid = false then
      { acc with
        viewed_nodes := Function.update acc.viewed_nodes onid true
        , import_node_list := (Function.update acc.import_node_list ozid
          (acc.import_node_list ozid ++ [onid])) }
    else acc
  if ozid ≠ this_zone ∧ expflag ozid = false then
    ({ acc1 with export_node_list := (Function.update acc1.export_node_list ozid
        (acc1.export_node_list ozid ++ [nid])) },
     Function.update expflag ozid true)
  else (acc1, expflag)

/-- Loop of pass two of setup_zone over the adjacency tail of one local
node. -/
def procNeighbors (this_zone : ℕ) (zone : ℕ → ℕ) (nid : ℕ) :
    List ℕ → ZoneAcc → (ℕ → Bool) → ZoneAcc
  | [], acc, _ => acc
  | onid :: rest, acc, expflag =>
      procNeighbors this_zone zone nid rest
        (procStep this_zone zone nid onid acc expflag).1
        (procStep this_zone zone nid onid acc expflag).2

/-- Pass two of setup_zone: iterate the local nodes in order with freshly
cleared viewed_nodes and import counts. -/
def pass2 (g : graph_t) (this_zone : ℕ) (localList : List ℕ) : ZoneAcc :=
  localList.foldl
    (fun acc nid =>
      procNeighbors this_zone g.zone_id nid (adjTail g nid) acc (fun _ => false))
    ⟨fun _ => false, fun _ => [], fun _ => []⟩

/-- Embedding of the list-building part of setup_zone from the graph
source file: the ascending local node list of pass one, then pass two's
lists of imports and exports, with every import list sorted ascending at the
end (the C qsort with comp_int; ties cannot arise between distinct node
ids, so a stable sort is a faithful model).  Pass one's counts only size
allocations and are elided; the returned triple is
(local_node_list, import_node_list, export_node_list). -/
def setup_zone (g : graph_t) (this_zone : ℕ) : List ℕ × (ℕ → List ℕ) × (ℕ → List ℕ) :=
  let local_node_list := (List.range g.nnode).filter (fun nid => g.zone_id nid = this_zone)
  let acc := pass2 g this_zone local_node_list
  (local_node_list,
   fun zid => List.insertionSort (· ≤ ·) (acc.import_node_list zid),
   fun zid => acc.export_node_list zid)

/-- Invariant carried through pass two of setup_zone: the viewed bitmap
records exactly the nodes already on some import list, every import entry
belongs to the zone of its list and that zone is foreign, and no import
list repeats a node. -/
def ImportInv (z : ℕ) (zone : ℕ → ℕ) (acc : ZoneAcc) : Prop :=
  (∀ m, acc.viewed_nodes m = true ↔ ∃ a, m ∈ acc.import_node_list a) ∧
  (∀ a m, m ∈ acc.import_node_list a → zone m = a ∧ a ≠ z) ∧
  (∀ a, (acc.import_node_list a).Nodup)

/-- Simulation state state_t from crun.h, restricted to the fields the
sequential kernel reads and writes.  C int arrays indexed by rat or node
become total functions updated functionally; the cumulative-weight array is
kept as a list because the kernel passes subarray views of it to
locate_value.  Counts are ℤ, as in the C code, where an errant decrement
could drive them negative. -/
structure state_t where
  nrat : ℕ
  rat_position : ℕ → ℕ
  rat_seed : ℕ → ℕ
  rat_count : ℕ → ℤ
  node_weight : ℕ → ℚ
  sum_weight : ℕ → ℚ
  neighbor_accum_weight : List ℚ

/-- Embedding of take_census from sim.c: `memset(rat_count, 0, nnode*4)`
zeroes the first nnode counters, then one pass over the rats increments the
counter of each rat's position. -/
def take_census (g : graph_t) (s : state_t) : state_t :=
  { s with rat_count :=
      ((List.range s.nrat).foldl
        (fun cnt ri => Function.update cnt (s.rat_position ri) (cnt (s.rat_position ri) + 1))
        (fun n => if n < g.nnode then 0 else s.rat_count n)) }

/-- Embedding of compute_all_weights from sim.c, parametric in the weight
computation: compute_weight calls mweight, whose log2-based formula is not
expressible over ℚ, so it is abstracted as a function `W` of the state
(compute_weight reads only rat_count, load_factor and the graph, never
node_weight, so evaluating `W` at the pre-loop state is exact).  Every
claim proved below holds for all `W`, in particular for the code's. -/
def compute_all_weights (g : graph_t) (W : state_t → ℕ → ℚ) (s : state_t) : state_t :=
  { s with node_weight := fun nid => if nid < g.nnode then W s nid else s.node_weight nid }

/-- Embedding of find_all_sums from sim.c: for every node, a running prefix
sum of the neighbor weights is written into neighbor_accum_weight and its
total into sum_weight. -/
def find_all_sums (g : graph_t) (s : state_t) : state_t :=
  (List.range g.nnode).foldl
    (fun st nid =>
      let estart := nstart g nid
      let eend := nstart g (nid + 1)
      let p := (List.range (eend - estart)).foldl
        (fun (p : ℚ × List ℚ) i =>
          let sum' := p.1 + st.node_weight (g.neighbor.getD (estart + i) 0)
          (sum', p.2.set (estart + i) sum'))
        (0, st.neighbor_accum_weight)
      { st with neighbor_accum_weight := p.2,
                sum_weight := Function.update st.sum_weight nid p.1 })
    s

/-- Embedding of fast_next_random_move from sim.c: draw a value below the
node's weight sum (advancing the rat's seed), locate it in the cumulative
weight subarray of the current node, and return the updated state together
with the neighbor at the located offset.  The C int index expression
`estart + offset` is clamped through toNat exactly where the C code would
read out of bounds. -/
def fast_next_random_move (g : graph_t) (s : state_t) (r : ℕ) : state_t × ℕ :=
  let nid := s.rat_position r
  let tsum := s.sum_weight nid
  let vp := next_random_float (s.rat_seed r) tsum
  let estart := nstart g nid
  let elen := nstart g (nid + 1) - estart
  let offset := locate_value vp.2 ((s.neighbor_accum_weight.drop estart).take elen)
  ({ s with rat_seed := Function.update s.rat_seed r vp.1 },
   g.neighbor.getD ((estart : ℤ) + offset).toNat 0)

/-- Loop body of the sequential do_batch from sim.c for batch offset `ri`:
`rid = ri + bstart`, the rat moves to its sampled neighbor, and the counts
of the old and new nodes are decremented and incremented. -/
def do_batch_body (g : graph_t) (bstart : ℕ) (st : state_t) (ri : ℕ) : state_t :=
  let rid := ri + bstart
  let onid := st.rat_position rid
  let mv := fast_next_random_move g st rid
  let cnt1 := Function.update mv.1.rat_count onid (mv.1.rat_count onid - 1)
  { mv.1 with
    rat_position := Function.update mv.1.rat_position rid mv.2,
    rat_count := Function.update cnt1 mv.2 (cnt1 mv.2 + 1) }

/-- Embedding of the sequential do_batch from sim.c: find_all_sums, then
the per-rat loop over the batch, then compute_all_weights. -/
def do_batch (g : graph_t) (W : state_t → ℕ → ℚ) (s : state_t) (bstart bcount : ℕ) : state_t :=
  compute_all_weights g W
    ((List.range bcount).foldl (do_batch_body g bstart) (find_all_sums g s))

/-! ## Zone assigner (the partitioner source file, sort-and-DP variant) -/

/-- Embedding of region_t from crun.h. -/
structure region_t where
  id : ℕ
  x : ℤ
  y : ℤ
  w : ℤ
  h : ℤ
  node_count : ℕ
  edge_count : ℕ
  zone_id : ℕ
deriving DecidableEq

/-- Ordering encoded by the compare function passed to qsort by
assign_zones: ascending region edge count (the C comparator returns
negative, zero or positive by comparing the edge_count fields only). -/
def compare (s1 s2 : region_t) : Prop :=
  s1.edge_count ≤ s2.edge_count

instance : DecidableRel compare :=
  fun a b => inferInstanceAs (Decidable (a.edge_count ≤ b.edge_count))

instance : IsTotal region_t compare :=
  ⟨fun a b => Nat.le_total a.edge_count b.edge_count⟩

instance : IsTrans region_t compare :=
  ⟨fun _ _ _ hab hbc => le_trans hab hbc⟩

/-- Embedding of the stdev helper of the chosen assign_zones variant,
without the final sqrt: the C function computes an integer sum, an
integer-DIVIDED mean cast to float (`mean = (float)(sum/len)`), the sum of
squared deviations from that truncated mean, and returns
`sqrt(SD/len)`.  Square roots do not exist in ℚ, so this embedding returns
the radicand `SD/len`; the only consumer compares two stdev values with
`>.`, and sqrt is strictly monotone on nonnegatives, so that comparison
equals the comparison of the radicands. -/
def stdev_sq (data : List region_t) (by_node : Bool) : ℚ :=
  if by_node then
    let sum : ℤ := (data.map (fun r => (r.node_count : ℤ))).sum
    let mean : ℚ := ((sum / (data.length : ℤ) : ℤ) : ℚ)
    let SD : ℚ := (data.map (fun r => ((r.node_count : ℚ) - mean) ^ 2)).sum
    SD / (data.length : ℚ)
  else
    let sum : ℤ := (data.map (fun r => (r.edge_count : ℤ))).sum
    let mean : ℚ := ((sum / (data.length : ℤ) : ℤ) : ℚ)
    let SD : ℚ := (data.map (fun r => ((r.edge_count : ℚ) - mean) ^ 2)).sum
    SD / (data.length : ℚ)

/-- Zone-assignment walk at the end of assign_zones: the `zid`-th group of
`zones[zid]` consecutive regions of the sorted order receives zone id
`zid`. -/
def apply_splits : List region_t → List ℕ → ℕ → List region_t
  | rl, [], _ => rl
  | rl, s :: rest, zid =>
      (rl.take s).map (fun r => { r with zone_id := zid }) ++
        apply_splits (rl.drop s) rest (zid + 1)

/-- Embedding of the chosen assign_zones variant: qsort the region array by
the compare function (edge count ascending; qsort's behaviour on ties is
unspecified, so any comparator-consistent sort is a faithful model and a
stable insertion sort is used), pick the weight key with the larger stdev,
run find_partition on the weights of the sorted order, and assign
contiguous groups to zones.  The stdev calls happen after the qsort, as in
the C code. -/
def assign_zones (region_list : List region_t) (nzone : ℕ) : List region_t :=
  let sorted := List.insertionSort compare region_list
  let node_stdev := stdev_sq sorted true
  let edge_stdev := stdev_sq sorted false
  let weights : List ℚ :=
    if node_stdev > edge_stdev then sorted.map (fun r => (r.node_count : ℚ))
    else sorted.map (fun r => (r.edge_count : ℚ))
  apply_splits sorted (find_partition weights nzone) 0

/-- Ordering by ascending region node count, for the specification-side
assigner below. -/
def compare_node (s1 s2 : region_t) : Prop :=
  s1.node_count ≤ s2.node_count

instance : DecidableRel compare_node :=
  fun a b => inferInstanceAs (Decidable (a.node_count ≤ b.node_count))

/-- Modelled from the spec for claim C9 only, to be compared with the
code's assign_zones: the spec says the regions are ordered ascending by the
same key chosen for the DP weights.  Everything else (the stdev-based
choice, find_partition, the group walk) is kept identical to the code so
that the comparison isolates the sort key. -/
def assign_zones_spec (region_list : List region_t) (nzone : ℕ) : List region_t :=
  if stdev_sq region_list true > stdev_sq region_list false then
    let sorted := List.insertionSort compare_node region_list
    apply_splits sorted (find_partition (sorted.map (fun r => (r.node_count : ℚ))) nzone) 0
  else
    let sorted := List.insertionSort compare region_list
    apply_splits sorted (find_partition (sorted.map (fun r => (r.edge_count : ℚ))) nzone) 0

/-- Raw variance of a list of values, mean taken exactly: the square of the
raw standard deviation the claim speaks about (comparisons of raw standard
deviations of nonnegative data equal comparisons of raw variances). -/
def raw_variance (l : List ℚ) : ℚ :=
  ((l.map (fun x => (x - l.sum / (l.length : ℚ)) ^ 2)).sum) / (l.length : ℚ)

/-- Number of rats of the first `R` whose position is `n`: the quantity
rat_count is supposed to track. -/
def census_count (R : ℕ) (pos : ℕ → ℕ) (n : ℕ) : ℤ :=
  ∑ r ∈ Finset.range R, if pos r = n then (1 : ℤ) else 0

/-- Census invariant I3: every in-range node's rat_count equals the number
of rats positioned there. -/
def CensusOK (g : graph_t) (s : state_t) : Prop :=
  ∀ n < g.nnode, s.rat_count n = census_count s.nrat s.rat_position n

/-- Sanity invariant: every rat sits on an in-range node. -/
def PosOK (g : graph_t) (s : state_t) : Prop :=
  ∀ r < s.nrat, s.rat_position r < g.nnode

end GraphRat

namespace GraphRat

/-! ## Theorems for the statistics and PRNG claims -/

/-- Behaviour of the data_max fold from an arbitrary accumulator: the
result dominates the accumulator and every element, and is either the
accumulator or an element. -/
lemma foldl_relu_max_spec (l : List ℚ) : ∀ v : ℚ,
    v ≤ l.foldl (fun val x => if val < x then x else val) v ∧
    (∀ x ∈ l, x ≤ l.foldl (fun val x => if val < x then x else val) v) ∧
    (l.foldl (fun val x => if val < x then x else val) v = v ∨
      l.foldl (fun val x => if val < x then x else val) v ∈ l) := by
  induction l with
  | nil => exact fun v => ⟨le_refl v, by simp, Or.inl rfl⟩
  | cons y rest ih =>
    intro v
    simp only [List.foldl_cons]
    obtain ⟨h1, h2, h3⟩ := ih (if v < y then y else v)
    have hv : v ≤ if v < y then y else v := by split <;> [exact le_of_lt (by assumption); exact le_refl v]
    have hy : y ≤ if v < y then y else v := by
      split
      · exact le_refl y
      · exact le_of_not_lt (by assumption)
    refine ⟨le_trans hv h1, ?_, ?_⟩
    · intro x hx
      rcases List.mem_cons.mp hx with hxy | hxr
      · subst hxy; exact le_trans hy h1
      · exact h2 x hxr
    · rcases h3 with h | h
      · rw [h]
        split
        · exact Or.inr (List.mem_cons_self _ _)
        · exact Or.inl rfl
      · exact Or.inr (List.mem_cons_of_mem _ h)

/-- C10: data_max returns the maximum of 0 and the array elements: the
result is nonnegative, dominates every element, is 0 or an element, and in
particular equals 0 whenever every element is strictly negative. -/
theorem data_max_spec (data : List ℚ) :
    0 ≤ data_max data ∧ (∀ x ∈ data, x ≤ data_max data) ∧
    (data_max data = 0 ∨ data_max data ∈ data) ∧
    ((∀ x ∈ data, x < 0) → data_max data = 0) := by
  obtain ⟨h1, h2, h3⟩ := foldl_relu_max_spec data 0
  rw [data_max]
  refine ⟨h1, h2, h3, fun hneg => ?_⟩
  rcases h3 with h | h
  · exact h
  · exact absurd h1 (not_le.mpr (hneg _ h))

/-- Witness for data_max_spec at the all-negative array `[-3, -1]`: the
returned maximum is 0 rather than the least negative element -1. -/
theorem data_max_spec_witness :
    (0 : ℚ) ≤ data_max [-3, -1] ∧ (∀ x ∈ ([-3, -1] : List ℚ), x ≤ data_max [-3, -1]) ∧
    (data_max [-3, -1] = 0 ∨ data_max [-3, -1] ∈ ([-3, -1] : List ℚ)) ∧
    data_max [-3, -1] = 0 := by
  obtain ⟨h1, h2, h3, h4⟩ := data_max_spec [-3, -1]
  exact ⟨h1, h2, h3, h4 (by decide)⟩

/-- C7 counterexample: the first value drawn from seed 0 is not 1, so the
scenario `rnext(s, 0)` twice from `s = 0` yields `1` then `48272` fails on
the code at its very first draw. -/
theorem rnext_first_draw_ne_one : rnext 0 0 ≠ 1 := by decide

/-- C7 amended: from seed 0 the two successive draws are 16807 and
811307504, and rnext computes exactly
`((x+1) * 16807 + seed * 48271) mod (2^31 - 1)`, storing the result as the
new seed (in this embedding the returned value is the new seed). -/
theorem rnext_s1_values :
    rnext 0 0 = 16807 ∧ rnext (rnext 0 0) 0 = 811307504 ∧
    ∀ seed x : ℕ, rnext seed x = ((x + 1) * 16807 + seed * 48271) % (2 ^ 31 - 1) := by
  refine ⟨by decide, by decide, fun seed x => ?_⟩
  norm_num [rnext, VVAL, MVAL, GROUPSIZE]

/-- C8: the seed produced by reseed depends only on the seed list, not on
the previous seed value, and therefore any subsequent identical pattern of
draws produces the identical sequence of values. -/
theorem reseed_independent_of_prior_seed (s1 s2 : ℕ) (L ds : List ℕ) :
    reseed s1 L = reseed s2 L ∧
    rnext_stream (reseed s1 L) ds = rnext_stream (reseed s2 L) ds :=
  ⟨rfl, rfl⟩

/-! ## Theorems for the partitioner edge cases -/

/-- C6: find_partition with one partition returns the single entry
`[nweights]`; with `npartitions ≥ nweights` it returns `npartitions`
entries, the first `nweights` of them 1 and the rest 0; in particular the
weights `[3, 1, 2]` with 4 partitions give `[1, 1, 1, 0]`. -/
theorem find_partition_edge_cases (w : List ℚ) (K : ℕ) :
    find_partition w 1 = [w.length] ∧
    (w.length ≤ K →
      find_partition w K = (List.range K).map (fun i => if i < w.length then 1 else 0)) ∧
    find_partition [3, 1, 2] 4 = [1, 1, 1, 0] := by
  refine ⟨by simp [find_partition], fun h => ?_, by decide⟩
  by_cases hK : K = 1
  · subst hK
    rcases Nat.le_one_iff_eq_zero_or_eq_one.mp h with h0 | h1
    · simp [find_partition, h0]
    · simp [find_partition, h1]
      decide
  · rw [find_partition, if_neg hK, if_pos h]

/-- Witness for find_partition_edge_cases at `w = [3, 1, 2]`, `K = 4`. -/
theorem find_partition_edge_cases_witness :
    find_partition [3, 1, 2] 1 = [3] ∧
    find_partition [3, 1, 2] 4 = (List.range 4).map (fun i => if i < 3 then 1 else 0) := by
  obtain ⟨h1, h2, _⟩ := find_partition_edge_cases [3, 1, 2] 4
  exact ⟨h1, h2 (by decide)⟩

/-! ## Theorems for the locate_value claim -/

/-- Element of a take-of-drop slice in terms of the original list. -/
lemma getD_drop_take (l : List ℚ) (a b i : ℕ) (hib : i < b) :
    ((l.drop a).take b).getD i 0 = l.getD (a + i) 0 := by
  rw [List.getD_eq_getElem?_getD, List.getD_eq_getElem?_getD, List.getElem?_take,
    if_pos hib, List.getElem?_drop]

/-- Monotonicity of getD on a nondecreasing list, for in-range indices. -/
lemma getD_mono_of_sorted (l : List ℚ) (hs : l.Sorted (· ≤ ·)) (i k : ℕ)
    (hik : i ≤ k) (hk : k < l.length) : l.getD i 0 ≤ l.getD k 0 := by
  rcases eq_or_lt_of_le hik with rfl | hlt
  · exact le_refl _
  · have hi : i < l.length := lt_trans hlt hk
    have hrel := hs.rel_get_of_lt (a := ⟨i, hi⟩) (b := ⟨k, hk⟩) hlt
    simp only [List.getD_eq_getElem?_getD, List.getElem?_eq_getElem hi,
      List.getElem?_eq_getElem hk, Option.getD_some]
    simpa using hrel

/-- Correctness of the linear scan: when some in-range entry exceeds the
target, the returned index is the first such position. -/
lemma locate_value_linear_spec (target : ℚ) :
    ∀ l : List ℚ, (∃ j, j < l.length ∧ target < l.getD j 0) →
    ∃ j : ℕ, locate_value_linear target l = (j : ℤ) ∧ j < l.length ∧ target < l.getD j 0 ∧
      ∀ i, i < j → ¬ target < l.getD i 0 := by
  intro l
  induction l with
  | nil => rintro ⟨j, hj, _⟩; simp at hj
  | cons x rest ih =>
    rintro ⟨j, hj, hjt⟩
    by_cases hx : target < x
    · refine ⟨0, by simp [locate_value_linear, hx], by simp, by simpa using hx, ?_⟩
      intro i hi
      exact absurd hi (Nat.not_lt_zero i)
    · have hj0 : j ≠ 0 := by rintro rfl; exact hx (by simpa using hjt)
      obtain ⟨j', rfl⟩ := Nat.exists_eq_succ_of_ne_zero hj0
      have hrest : ∃ j, j < rest.length ∧ target < rest.getD j 0 :=
        ⟨j', by simpa using hj, by simpa using hjt⟩
      obtain ⟨j0, heq, hlen, hlt, hmin⟩ := ih hrest
      refine ⟨j0 + 1, ?_, by simpa using hlen, by simpa using hlt, ?_⟩
      · rw [locate_value_linear, if_neg hx]
        simp only [heq]
        rw [if_neg (by omega)]
        push_cast
        ring
      · intro i hi
        cases i with
        | zero => simpa using hx
        | succ i' =>
          rw [List.getD_cons_succ]
          exact hmin i' (by omega)

/-- Correctness of the search loop: whenever the first index whose entry
exceeds the target lies inside the current window, the loop returns it. -/
lemma locate_aux_spec (target : ℚ) (l : List ℚ) (hs : l.Sorted (· ≤ ·)) (j : ℕ)
    (hjP : target < l.getD j 0) (hjmin : ∀ i, i < j → ¬ target < l.getD i 0) :
    ∀ (n : ℕ) (left right : ℤ), (right - left).toNat ≤ n → 0 ≤ left →
      left ≤ (j : ℤ) → (j : ℤ) ≤ right → right < l.length →
      locate_aux target l left right = (j : ℤ) := by
  intro n
  induction n with
  | zero =>
    intro left right hn h0 hjl hjr hrl
    rw [locate_aux, dif_neg (by omega)]
    omega
  | succ m ih =>
    intro left right hn h0 hjl hjr hrl
    rw [locate_aux]
    by_cases hlr : left < right
    case neg => rw [dif_neg hlr]; omega
    rw [dif_pos hlr]
    by_cases hsmall : right - left + 1 < BINARY_THRESHOLD
    · rw [if_pos hsmall]
      have hexists : ∃ jj, jj < ((l.drop left.toNat).take (right - left + 1).toNat).length ∧
          target < ((l.drop left.toNat).take (right - left + 1).toNat).getD jj 0 := by
        refine ⟨j - left.toNat, ?_, ?_⟩
        · simp only [List.length_take, List.length_drop]
          omega
        · rw [getD_drop_take _ _ _ _ (by omega)]
          have harith : left.toNat + (j - left.toNat) = j := by omega
          rw [harith]
          exact hjP
      obtain ⟨j0, heq, hlen0, hlt0, hmin0⟩ := locate_value_linear_spec target _ hexists
      have hj0lt : j0 < (right - left + 1).toNat := by
        simp only [List.length_take, List.length_drop] at hlen0
        omega
      rw [getD_drop_take _ _ _ _ hj0lt] at hlt0
      have h1 : ¬ (left.toNat + j0 < j) := fun hcon => hjmin _ hcon hlt0
      have h2 : ¬ (j - left.toNat < j0) := by
        intro hcon
        refine hmin0 _ hcon ?_
        rw [getD_drop_take _ _ _ _ (by omega)]
        have harith : left.toNat + (j - left.toNat) = j := by omega
        rw [harith]
        exact hjP
      rw [heq]
      omega
    · rw [if_neg hsmall]
      simp only [BINARY_THRESHOLD] at hsmall
      by_cases hmid : target < l.getD (left + (right - left) / 2).toNat 0
      · rw [if_pos hmid]
        have hjle : ¬ ((left + (right - left) / 2).toNat < j) := fun hcon => hjmin _ hcon hmid
        exact ih left (left + (right - left) / 2) (by omega) h0 hjl (by omega) (by omega)
      · rw [if_neg hmid]
        have hjgt : ¬ ((j : ℤ) ≤ left + (right - left) / 2) := by
          intro hcon
          refine hmid (lt_of_lt_of_le hjP ?_)
          exact getD_mono_of_sorted l hs j (left + (right - left) / 2).toNat (by omega) (by omega)
        exact ih (left + (right - left) / 2 + 1) right (by omega) (by omega) (by omega) (by omega) hrl

/-- C3: for a nondecreasing array of length at least 1 and a target in
`[0, a[L-1])`, locate_value returns the smallest index `i` with
`target < a[i]` (equal cumulative values route to the earlier index,
because every entry before `i` is at most the target), whether the
binary-search or the linear-scan phase finds it. -/
theorem locate_value_spec (l : List ℚ) (t : ℚ) (hs : l.Sorted (· ≤ ·)) (hlen : 1 ≤ l.length)
    (ht0 : 0 ≤ t) (htop : t < l.getD (l.length - 1) 0) :
    ∃ i : ℕ, locate_value t l = (i : ℤ) ∧ i < l.length ∧ t < l.getD i 0 ∧
      ∀ j, j < i → l.getD j 0 ≤ t := by
  have hex : ∃ i : ℕ, t < l.getD i 0 := ⟨l.length - 1, htop⟩
  have hfind_le : Nat.find hex ≤ l.length - 1 := Nat.find_le htop
  refine ⟨Nat.find hex, ?_, by omega, Nat.find_spec hex, ?_⟩
  · rw [locate_value]
    exact locate_aux_spec t l hs (Nat.find hex) (Nat.find_spec hex)
      (fun i hi => Nat.find_min hex hi) ((l.length : ℤ) - 1).toNat 0 ((l.length : ℤ) - 1)
      (by omega) (by omega) (by omega) (by omega) (by omega)
  · intro jj hjj
    exact not_lt.mp (Nat.find_min hex hjj)

/-- Witness for locate_value_spec on the nondecreasing array
`[1, 2, 3, 4, 5]` with target 2: the window is long enough that a binary
step runs before the linear scan, and the answer is the first index whose
entry exceeds 2. -/
theorem locate_value_spec_witness :
    ∃ i : ℕ, locate_value 2 [1, 2, 3, 4, 5] = (i : ℤ) ∧
      i < ([1, 2, 3, 4, 5] : List ℚ).length ∧
      (2 : ℚ) < ([1, 2, 3, 4, 5] : List ℚ).getD i 0 ∧
      ∀ j, j < i → ([1, 2, 3, 4, 5] : List ℚ).getD j 0 ≤ 2 :=
  locate_value_spec [1, 2, 3, 4, 5] 2 (by decide) (by decide) (by norm_num) (by norm_num)

/-! ## Theorem for the read_graph self-edge claim -/

/-- C2 evaluated at the failing input: a 2-by-1 grid with no edge lines.
The trailing fill-out loop stores the self edge of node 1 into
`neighbor[1]` but leaves `neighbor_start[1]` at its calloc value 0, so
`adjacency[neighbor_start[1]]` is node 0's self edge 0, not 1: the
self-edge invariant fails for the trailing isolated node. -/
theorem read_graph_trailing_selfedge_bug :
    read_graph 2 1 [] = some ([0, 1], [0, 0, 2]) ∧
    ([0, 1].getD ([0, 0, 2].getD 1 0) 0 : ℕ) ≠ 1 := by
  constructor
  · rfl
  · decide

/-! ## Theorems for the batch-kernel conservation claim -/

/-- Every read of the adjacency vector yields an in-range node when all its
entries are in range and there is at least one node (the out-of-range
default is 0). -/
lemma neighbor_getD_lt (g : graph_t) (hnb : ∀ x ∈ g.neighbor, x < g.nnode)
    (h0 : 0 < g.nnode) (i : ℕ) : g.neighbor.getD i 0 < g.nnode := by
  by_cases h : i < g.neighbor.length
  · rw [List.getD_eq_getElem _ _ h]
    exact hnb _ (List.getElem_mem h)
  · rw [List.getD_eq_default _ _ (le_of_not_lt h)]
    exact h0

/-- Effect of repositioning one rat on the census of each node. -/
lemma census_count_update (R : ℕ) (pos : ℕ → ℕ) (rid : ℕ) (hrid : rid < R) (nn n : ℕ) :
    census_count R (Function.update pos rid nn) n =
      census_count R pos n - (if n = pos rid then 1 else 0) + (if n = nn then 1 else 0) := by
  unfold census_count
  have hmem : rid ∈ Finset.range R := Finset.mem_range.mpr hrid
  have hfun : (fun r => if Function.update pos rid nn r = n then (1 : ℤ) else 0) =
      Function.update (fun r => if pos r = n then (1 : ℤ) else 0) rid
        (if nn = n then 1 else 0) := by
    funext r
    by_cases hr : r = rid
    · subst hr; simp
    · simp [Function.update_noteq hr]
  calc (∑ r ∈ Finset.range R, if Function.update pos rid nn r = n then (1 : ℤ) else 0)
      = ∑ r ∈ Finset.range R, Function.update (fun r => if pos r = n then (1 : ℤ) else 0) rid
          (if nn = n then 1 else 0) r := by rw [← hfun]
    _ = (if nn = n then 1 else 0) + ∑ r ∈ Finset.range R \ {rid},
          (if pos r = n then (1 : ℤ) else 0) := Finset.sum_update_of_mem hmem _ _
    _ = (if nn = n then 1 else 0) + ∑ r ∈ (Finset.range R).erase rid,
          (if pos r = n then (1 : ℤ) else 0) := by rw [Finset.erase_eq]
    _ = (if nn = n then 1 else 0) +
          ((∑ r ∈ Finset.range R, if pos r = n then (1 : ℤ) else 0) -
            (if pos rid = n then 1 else 0)) := by rw [Finset.sum_erase_eq_sub hmem]
    _ = _ := by
          have e1 : (if n = pos rid then (1 : ℤ) else 0) = (if pos rid = n then 1 else 0) := by
            by_cases h : n = pos rid
            · simp [h]
            · rw [if_neg h, if_neg (fun hc : pos rid = n => h hc.symm)]
          have e2 : (if n = nn then (1 : ℤ) else 0) = (if nn = n then 1 else 0) := by
            by_cases h : n = nn
            · simp [h]
            · rw [if_neg h, if_neg (fun hc : nn = n => h hc.symm)]
          rw [e1, e2]; ring

/-- Census totals over the node range: when every rat sits on an in-range
node, the census entries over all nodes sum to the number of rats. -/
lemma census_total (N R : ℕ) (pos : ℕ → ℕ) (hp : ∀ r < R, pos r < N) :
    ∑ n ∈ Finset.range N, census_count R pos n = (R : ℤ) := by
  unfold census_count
  rw [Finset.sum_comm]
  have hone : ∀ r ∈ Finset.range R,
      (∑ n ∈ Finset.range N, if pos r = n then (1 : ℤ) else 0) = 1 := by
    intro r hr
    rw [Finset.sum_ite_eq (Finset.range N) (pos r) (fun _ => (1 : ℤ))]
    simp [Finset.mem_range.mpr (hp r (Finset.mem_range.mp hr))]
  rw [Finset.sum_congr rfl hone]
  simp

/-- Counting fold of take_census from an arbitrary starting counter. -/
lemma take_census_fold (pos : ℕ → ℕ) : ∀ (R : ℕ) (cnt0 : ℕ → ℤ) (n : ℕ),
    ((List.range R).foldl
      (fun cnt ri => Function.update cnt (pos ri) (cnt (pos ri) + 1)) cnt0) n
      = cnt0 n + census_count R pos n := by
  intro R
  induction R with
  | zero => intro cnt0 n; simp [census_count]
  | succ m ih =>
    intro cnt0 n
    rw [List.range_succ, List.foldl_append, List.foldl_cons, List.foldl_nil]
    have hsum : census_count (m + 1) pos n
        = census_count m pos n + (if pos m = n then 1 else 0) :=
      Finset.sum_range_succ _ m
    by_cases hn : pos m = n
    · subst hn
      rw [Function.update_same, ih, hsum, if_pos rfl]
      ring
    · rw [Function.update_noteq (fun hc => hn hc.symm), ih, hsum, if_neg hn]
      ring

/-- Fields of the loop body of the sequential do_batch: the rat count of
every node changes by the difference of the two indicator updates, and the
moved rat's position becomes the sampled neighbor. -/
lemma do_batch_body_count (cnt : ℕ → ℤ) (onid nnid n : ℕ) :
    Function.update (Function.update cnt onid (cnt onid - 1)) nnid
      ((Function.update cnt onid (cnt onid - 1)) nnid + 1) n
      = cnt n - (if n = onid then 1 else 0) + (if n = nnid then 1 else 0) := by
  by_cases h2 : n = nnid
  · subst h2
    rw [Function.update_same]
    by_cases h1 : n = onid
    · subst h1; rw [Function.update_same]; simp
    · rw [Function.update_noteq h1]; simp [h1]
  · rw [Function.update_noteq h2]
    by_cases h1 : n = onid
    · subst h1; rw [Function.update_same]; simp [h2]
    · rw [Function.update_noteq h1]; simp [h1, h2]

/-- Projection of the loop body: rat counts change by the two indicator
updates of the old and new node. -/
lemma do_batch_body_rat_count (g : graph_t) (bstart : ℕ) (st : state_t) (ri : ℕ) :
    (do_batch_body g bstart st ri).rat_count
      = (fun n => st.rat_count n
          - (if n = st.rat_position (ri + bstart) then 1 else 0)
          + (if n = (fast_next_random_move g st (ri + bstart)).2 then 1 else 0)) := by
  funext n
  exact do_batch_body_count st.rat_count _ _ n

/-- Projection of the loop body: the moved rat's position becomes the
sampled neighbor. -/
lemma do_batch_body_rat_position (g : graph_t) (bstart : ℕ) (st : state_t) (ri : ℕ) :
    (do_batch_body g bstart st ri).rat_position
      = Function.update st.rat_position (ri + bstart)
          (fast_next_random_move g st (ri + bstart)).2 := rfl

/-- Projection of the loop body: the rat total is untouched. -/
lemma do_batch_body_nrat (g : graph_t) (bstart : ℕ) (st : state_t) (ri : ℕ) :
    (do_batch_body g bstart st ri).nrat = st.nrat := rfl

/-- One iteration of the do_batch rat loop preserves the census and
position invariants and the rat total. -/
lemma do_batch_body_step (g : graph_t) (bstart : ℕ) (st : state_t) (ri : ℕ)
    (hnb : ∀ x ∈ g.neighbor, x < g.nnode) (h0 : 0 < g.nnode)
    (hrid : ri + bstart < st.nrat) (hc : CensusOK g st) (hp : PosOK g st) :
    (do_batch_body g bstart st ri).nrat = st.nrat ∧
    CensusOK g (do_batch_body g bstart st ri) ∧ PosOK g (do_batch_body g bstart st ri) := by
  refine ⟨rfl, ?_, ?_⟩
  · intro n hn
    simp only [do_batch_body_rat_count, do_batch_body_rat_position, do_batch_body_nrat]
    rw [census_count_update st.nrat st.rat_position (ri + bstart) hrid, hc n hn]
  · intro r hr
    rw [do_batch_body_nrat] at hr
    simp only [do_batch_body_rat_position]
    by_cases hreq : r = ri + bstart
    · subst hreq
      rw [Function.update_same]
      exact neighbor_getD_lt g hnb h0 _
    · rw [Function.update_noteq hreq]
      exact hp r hr

/-- The whole rat loop of do_batch preserves the invariants. -/
lemma do_batch_fold_invariant (g : graph_t) (bstart : ℕ)
    (hnb : ∀ x ∈ g.neighbor, x < g.nnode) (h0 : 0 < g.nnode) :
    ∀ (L : List ℕ) (st : state_t), (∀ ri ∈ L, ri + bstart < st.nrat) →
      CensusOK g st → PosOK g st →
      (L.foldl (do_batch_body g bstart) st).nrat = st.nrat ∧
      CensusOK g (L.foldl (do_batch_body g bstart) st) ∧
      PosOK g (L.foldl (do_batch_body g bstart) st) := by
  intro L
  induction L with
  | nil => intro st _ hc hp; exact ⟨rfl, hc, hp⟩
  | cons a L ih =>
    intro st hL hc hp
    rw [List.foldl_cons]
    obtain ⟨hn, hc', hp'⟩ :=
      do_batch_body_step g bstart st a hnb h0 (hL a (List.mem_cons_self a L)) hc hp
    obtain ⟨hn2, hc2, hp2⟩ := ih (do_batch_body g bstart st a)
      (fun ri hri => by rw [hn]; exact hL ri (List.mem_cons_of_mem _ hri)) hc' hp'
    exact ⟨by rw [hn2, hn], hc2, hp2⟩

/-- Projection facts for find_all_sums: it writes only sum_weight and
neighbor_accum_weight. -/
lemma find_all_sums_frame (g : graph_t) (s : state_t) :
    (find_all_sums g s).nrat = s.nrat ∧
    (find_all_sums g s).rat_position = s.rat_position ∧
    (find_all_sums g s).rat_count = s.rat_count := by
  unfold find_all_sums
  generalize List.range g.nnode = L
  induction L generalizing s with
  | nil => exact ⟨rfl, rfl, rfl⟩
  | cons a L ih =>
    rw [List.foldl_cons]
    exact ih _

/-- C4: in the sequential kernel, take_census establishes the per-node
census property, and do_batch on any batch range inside `[0, nrat)`
preserves it; consequently the per-node counts over all nodes still sum to
the number of rats at the end of the batch.  The weight computation is
arbitrary (the code's mweight pipeline is one instance) because the
invariant does not depend on which neighbor each rat selects. -/
theorem do_batch_conservation :
    (∀ (g : graph_t) (s : state_t), CensusOK g (take_census g s)) ∧
    (∀ (g : graph_t) (W : state_t → ℕ → ℚ) (s : state_t) (bstart bcount : ℕ),
      0 < g.nnode → (∀ x ∈ g.neighbor, x < g.nnode) →
      bstart + bcount ≤ s.nrat → CensusOK g s → PosOK g s →
      CensusOK g (do_batch g W s bstart bcount) ∧
      (do_batch g W s bstart bcount).nrat = s.nrat ∧
      ∑ n ∈ Finset.range g.nnode, (do_batch g W s bstart bcount).rat_count n = (s.nrat : ℤ)) := by
  constructor
  · intro g s n hn
    have h := take_census_fold s.rat_position s.nrat
      (fun m => if m < g.nnode then (0 : ℤ) else s.rat_count m) n
    simp only [hn, if_true, zero_add] at h
    exact h
  · intro g W s bstart bcount h0 hnb hb hc hp
    obtain ⟨hf1, hf2, hf3⟩ := find_all_sums_frame g s
    have hcf : CensusOK g (find_all_sums g s) := by
      intro n hn
      rw [hf3, hf1, hf2]
      exact hc n hn
    have hpf : PosOK g (find_all_sums g s) := by
      intro r hr
      rw [hf2]
      exact hp r (by rw [← hf1]; exact hr)
    obtain ⟨hn2, hc2, hp2⟩ := do_batch_fold_invariant g bstart hnb h0
      (List.range bcount) (find_all_sums g s)
      (fun ri hri => by
        rw [hf1]
        have := List.mem_range.mp hri
        omega) hcf hpf
    set s2 := (List.range bcount).foldl (do_batch_body g bstart) (find_all_sums g s) with hs2
    have hnrat : s2.nrat = s.nrat := by rw [hn2, hf1]
    have hcw : CensusOK g (do_batch g W s bstart bcount) := hc2
    have hpw : PosOK g s2 := hp2
    refine ⟨hcw, hnrat, ?_⟩
    have hsum : ∀ n ∈ Finset.range g.nnode,
        (do_batch g W s bstart bcount).rat_count n
          = census_count s2.nrat s2.rat_position n := by
      intro n hn
      exact hcw n (Finset.mem_range.mp hn)
    rw [Finset.sum_congr rfl hsum, census_total g.nnode s2.nrat s2.rat_position hpw, hnrat]

/-- Witness for do_batch_conservation: one node with only its self edge,
one rat sitting on it, weight function constantly 1, batch `[0, 1)`. -/
theorem do_batch_conservation_witness :
    CensusOK ⟨1, [0], [0, 1], fun _ => 0⟩
      (take_census ⟨1, [0], [0, 1], fun _ => 0⟩
        ⟨1, fun _ => 0, fun _ => 0, fun _ => 0, fun _ => 1, fun _ => 1, [1]⟩) ∧
    (CensusOK ⟨1, [0], [0, 1], fun _ => 0⟩
        (do_batch ⟨1, [0], [0, 1], fun _ => 0⟩ (fun _ _ => 1)
          ⟨1, fun _ => 0, fun _ => 0, fun n => if n = 0 then 1 else 0, fun _ => 1, fun _ => 1, [1]⟩ 0 1) ∧
      (do_batch ⟨1, [0], [0, 1], fun _ => 0⟩ (fun _ _ => 1)
          ⟨1, fun _ => 0, fun _ => 0, fun n => if n = 0 then 1 else 0, fun _ => 1, fun _ => 1, [1]⟩ 0 1).nrat = 1 ∧
      ∑ n ∈ Finset.range 1,
        (do_batch ⟨1, [0], [0, 1], fun _ => 0⟩ (fun _ _ => 1)
          ⟨1, fun _ => 0, fun _ => 0, fun n => if n = 0 then 1 else 0, fun _ => 1, fun _ => 1, [1]⟩ 0 1).rat_count n = (1 : ℤ)) := by
  constructor
  · exact do_batch_conservation.1 _ _
  · refine do_batch_conservation.2 _ _ _ 0 1 Nat.one_pos ?_ (le_refl 1) ?_ ?_
    · intro x hx
      have hx0 : x = 0 := by simpa using hx
      subst hx0
      exact Nat.one_pos
    · intro n hn
      have hn1 : n < 1 := hn
      interval_cases n
      show (if (0 : ℕ) = 0 then (1 : ℤ) else 0) = census_count 1 (fun _ => 0) 0
      simp [census_count]
    · intro r _
      exact Nat.one_pos

/-! ## Theorems for the zone-assigner claim -/

/-- C9 counterexample: first, with regions of (node, edge) counts (10, 5)
and (1, 6), the node key is chosen for the weights (its stdev is larger),
yet the regions stay ordered by edge count, so the code's assignment
differs from the sort-by-chosen-key assignment the claim describes.
Second, with (node, edge) counts (4, 7), (5, 8), (6, 8), the raw standard
deviation of the node counts is strictly larger than that of the edge
counts, yet the code does not choose the node key: its stdev uses an
integer-truncated mean, which inflates the edge stdev into a tie. -/
theorem assign_zones_counterexample :
    (assign_zones [⟨0, 0, 0, 0, 0, 10, 5, 0⟩, ⟨1, 0, 0, 0, 0, 1, 6, 0⟩] 2 ≠
      assign_zones_spec [⟨0, 0, 0, 0, 0, 10, 5, 0⟩, ⟨1, 0, 0, 0, 0, 1, 6, 0⟩] 2) ∧
    (raw_variance [4, 5, 6] > raw_variance [7, 8, 8] ∧
      ¬ (stdev_sq [⟨0, 0, 0, 0, 0, 4, 7, 0⟩, ⟨1, 0, 0, 0, 0, 5, 8, 0⟩,
            ⟨2, 0, 0, 0, 0, 6, 8, 0⟩] true >
          stdev_sq [⟨0, 0, 0, 0, 0, 4, 7, 0⟩, ⟨1, 0, 0, 0, 0, 5, 8, 0⟩,
            ⟨2, 0, 0, 0, 0, 6, 8, 0⟩] false)) := by
  refine ⟨?_, by norm_num [raw_variance], by norm_num [stdev_sq]⟩
  have hsortA : List.insertionSort compare
      [(⟨0, 0, 0, 0, 0, 10, 5, 0⟩ : region_t), ⟨1, 0, 0, 0, 0, 1, 6, 0⟩]
        = [⟨0, 0, 0, 0, 0, 10, 5, 0⟩, ⟨1, 0, 0, 0, 0, 1, 6, 0⟩] := by
    simp [List.insertionSort, List.orderedInsert, compare]
  have hsortB : List.insertionSort compare_node
      [(⟨0, 0, 0, 0, 0, 10, 5, 0⟩ : region_t), ⟨1, 0, 0, 0, 0, 1, 6, 0⟩]
        = [⟨1, 0, 0, 0, 0, 1, 6, 0⟩, ⟨0, 0, 0, 0, 0, 10, 5, 0⟩] := by
    simp [List.insertionSort, List.orderedInsert, compare_node]
  have hst : stdev_sq [(⟨0, 0, 0, 0, 0, 10, 5, 0⟩ : region_t), ⟨1, 0, 0, 0, 0, 1, 6, 0⟩] true
      > stdev_sq [(⟨0, 0, 0, 0, 0, 10, 5, 0⟩ : region_t), ⟨1, 0, 0, 0, 0, 1, 6, 0⟩] false := by
    norm_num [stdev_sq]
  simp only [assign_zones, assign_zones_spec, hsortA, hsortB]
  rw [if_pos hst, if_pos hst]
  decide

/-- C9 amended: assign_zones orders the regions ascending by edge count
regardless of which weight key it then chooses; it chooses between node
count and edge count by comparing the code's stdev values (computed with an
integer-truncated mean, which can disagree with the raw-standard-deviation
comparison), partitions the weights of the sorted order with
find_partition, and assigns the k-th contiguous group of the sorted order
to zone k. -/
theorem assign_zones_amended (region_list : List region_t) (nzone : ℕ) :
    ∃ sorted : List region_t,
      sorted.Perm region_list ∧ sorted.Sorted compare ∧
      assign_zones region_list nzone =
        apply_splits sorted
          (find_partition
            (if stdev_sq sorted true > stdev_sq sorted false then
              sorted.map (fun r => (r.node_count : ℚ))
            else sorted.map (fun r => (r.edge_count : ℚ))) nzone) 0 :=
  ⟨List.insertionSort compare region_list,
    List.perm_insertionSort compare region_list,
    List.sorted_insertionSort compare region_list, rfl⟩

/-! ## Support lemmas for the partitioner optimality claim -/

/-- Result of the best-candidate fold: it is the accumulator or one of the
candidates. -/
lemma foldl_updBest_result : ∀ (cands : List (ℚ × ℕ)) (acc : ℚ × ℕ),
    cands.foldl updBest acc = acc ∨ cands.foldl updBest acc ∈ cands := by
  intro cands
  induction cands with
  | nil => exact fun acc => Or.inl rfl
  | cons c rest ih =>
    intro acc
    rw [List.foldl_cons]
    rcases ih (updBest acc c) with h | h
    · rw [h]
      unfold updBest
      split
      · exact Or.inr (List.mem_cons_self _ _)
      · exact Or.inl rfl
    · exact Or.inr (List.mem_cons_of_mem _ h)

/-- The best-candidate fold from a nonnegative accumulator returns a cost
at most the accumulator's and at most every candidate's. -/
lemma foldl_updBest_le : ∀ (cands : List (ℚ × ℕ)) (acc : ℚ × ℕ), 0 ≤ acc.1 →
    (∀ p ∈ cands, 0 ≤ p.1) →
    (cands.foldl updBest acc).1 ≤ acc.1 ∧ ∀ p ∈ cands, (cands.foldl updBest acc).1 ≤ p.1 := by
  intro cands
  induction cands with
  | nil => exact fun acc h _ => ⟨le_refl _, by simp⟩
  | cons c rest ih =>
    intro acc hacc hnn
    rw [List.foldl_cons]
    have hc : 0 ≤ c.1 := hnn c (List.mem_cons_self _ _)
    have hupd : 0 ≤ (updBest acc c).1 ∧ (updBest acc c).1 ≤ acc.1 ∧ (updBest acc c).1 ≤ c.1 := by
      unfold updBest
      split
      · rename_i h
        rcases h with h | h
        · exact absurd hacc (not_le.mpr h)
        · exact ⟨hc, le_of_lt h, le_refl _⟩
      · rename_i h
        push_neg at h
        exact ⟨hacc, le_refl _, h.2⟩
    obtain ⟨h1, h2⟩ := ih (updBest acc c) hupd.1 (fun p hp => hnn p (List.mem_cons_of_mem _ hp))
    refine ⟨le_trans h1 hupd.2.1, ?_⟩
    intro p hp
    rcases List.mem_cons.mp hp with rfl | hp
    · exact le_trans h1 hupd.2.2
    · exact h2 p hp

/-- The -1.0 sentinel is replaced by the first candidate. -/
lemma foldl_updBest_sentinel (c0 : ℚ × ℕ) (rest : List (ℚ × ℕ)) :
    ((c0 :: rest).foldl updBest (-1, 0)) = rest.foldl updBest c0 := by
  rw [List.foldl_cons]
  have h : updBest (-1, 0) c0 = c0 := by
    unfold updBest
    rw [if_pos]
    exact Or.inl (by norm_num)
  rw [h]

/-- Positive lists are at least as long as their sums... inverted: the
length bounds the sum from below. -/
lemma length_le_sum_of_pos : ∀ l : List ℕ, (∀ x ∈ l, 1 ≤ x) → l.length ≤ l.sum := by
  intro l
  induction l with
  | nil => simp
  | cons x rest ih =>
    intro h
    have hx := h x (List.mem_cons_self _ _)
    have hr := ih (fun y hy => h y (List.mem_cons_of_mem _ hy))
    simp only [List.length_cons, List.sum_cons]
    omega

/-- A positive list whose sum exceeds its length has an entry of at least
2. -/
lemma exists_ge_two : ∀ l : List ℕ, (∀ x ∈ l, 1 ≤ x) → l.length < l.sum →
    ∃ u₁ a u₂, l = u₁ ++ a :: u₂ ∧ 2 ≤ a := by
  intro l
  induction l with
  | nil => intro _ h; simp at h
  | cons x rest ih =>
    intro hpos hlt
    by_cases hx : 2 ≤ x
    · exact ⟨[], x, rest, rfl, hx⟩
    · have hx1 : x = 1 := by
        have := hpos x (List.mem_cons_self _ _); omega
      have hrest : rest.length < rest.sum := by
        simp only [List.length_cons, List.sum_cons] at hlt; omega
      obtain ⟨u₁, a, u₂, heq, ha⟩ := ih (fun y hy => hpos y (List.mem_cons_of_mem _ hy)) hrest
      exact ⟨x :: u₁, a, u₂, by rw [heq]; rfl, ha⟩

/-- A positive list whose sum equals its length is all ones. -/
lemma eq_replicate_one : ∀ l : List ℕ, (∀ x ∈ l, 1 ≤ x) → l.sum = l.length →
    l = List.replicate l.length 1 := by
  intro l
  induction l with
  | nil => intro _ _; rfl
  | cons x rest ih =>
    intro hpos hsum
    have hx := hpos x (List.mem_cons_self _ _)
    have hr := length_le_sum_of_pos rest (fun y hy => hpos y (List.mem_cons_of_mem _ hy))
    simp only [List.length_cons, List.sum_cons] at hsum ⊢
    have hx1 : x = 1 := by omega
    have hrs : rest.sum = rest.length := by omega
    have h2 := ih (fun y hy => hpos y (List.mem_cons_of_mem _ hy)) hrs
    subst hx1
    rw [List.replicate_succ, ← h2]

/-- Block totals of a concatenation of split lists. -/
lemma blockSums_append : ∀ (u t : List ℕ) (w : List ℚ),
    blockSums w (u ++ t) = blockSums w u ++ blockSums (w.drop u.sum) t := by
  intro u
  induction u with
  | nil => intro t w; simp [blockSums]
  | cons s u ih =>
    intro t w
    simp only [List.cons_append, blockSums, List.sum_cons, List.append_eq]
    rw [ih t (w.drop s), List.drop_drop]

/-- Cost of a concatenation of split lists. -/
lemma splitsCost_append (u t : List ℕ) (w : List ℚ) :
    splitsCost w (u ++ t) = splitsCost w u + splitsCost (w.drop u.sum) t := by
  unfold splitsCost
  rw [blockSums_append, List.map_append, List.sum_append]

/-- The left-to-right cost of a reversed split list equals the
right-to-left cost the dynamic program computes. -/
lemma splitsCost_reverse_rcost : ∀ (rs : List ℕ) (w : List ℚ),
    splitsCost w rs.reverse = rcost w rs.sum rs := by
  intro rs
  induction rs with
  | nil => intro w; simp [splitsCost, blockSums, rcost]
  | cons r rest ih =>
    intro w
    rw [List.reverse_cons, splitsCost_append, ih w]
    have hdrop : rest.reverse.sum = rest.sum := by
      rw [List.sum_reverse]
    rw [hdrop]
    show rcost w rest.sum rest + splitsCost (w.drop rest.sum) [r] = rcost w (r :: rest).sum (r :: rest)
    have hr : rcost w (r :: rest).sum (r :: rest)
        = segmentCost w rest.sum r + rcost w rest.sum rest := by
      show segmentCost w ((r :: rest).sum - r) r + rcost w ((r :: rest).sum - r) rest = _
      have : (r :: rest).sum - r = rest.sum := by simp
      rw [this]
    rw [hr]
    have hone : splitsCost (w.drop rest.sum) [r] = segmentCost w rest.sum r := by
      simp [splitsCost, blockSums, segmentCost, segSum]
    rw [hone]
    ring

/-- Zero-size blocks do not contribute to the cost. -/
lemma splitsCost_filter : ∀ (splits : List ℕ) (w : List ℚ),
    splitsCost w (splits.filter (fun s => s ≠ 0)) = splitsCost w splits := by
  intro splits
  induction splits with
  | nil => intro w; rfl
  | cons s rest ih =>
    intro w
    by_cases hs : s = 0
    · subst hs
      rw [List.filter_cons_of_neg (by simp)]
      show splitsCost w (rest.filter _) = splitsCost w (0 :: rest)
      rw [ih w]
      simp [splitsCost, blockSums]
    · rw [List.filter_cons_of_pos (by simp [hs])]
      show splitsCost w (s :: rest.filter _) = splitsCost w (s :: rest)
      simp only [splitsCost, blockSums, List.map_cons, List.sum_cons]
      have := ih (w.drop s)
      unfold splitsCost at this
      rw [this]

/-- Zero-size blocks do not contribute to the sum of sizes. -/
lemma sum_filter_ne_zero : ∀ splits : List ℕ,
    (splits.filter (fun s => s ≠ 0)).sum = splits.sum := by
  intro splits
  induction splits with
  | nil => rfl
  | cons s rest ih =>
    by_cases hs : s = 0
    · subst hs
      rw [List.filter_cons_of_neg (by simp)]
      rw [ih, List.sum_cons]
      omega
    · rw [List.filter_cons_of_pos (by simp [hs]), List.sum_cons, List.sum_cons, ih]

/-- Splitting one block of size at least 1 into a block of size 1 and the
rest cannot increase the cost when the weights are nonnegative. -/
lemma splitsCost_split_le (w : List ℚ) (hw : ∀ x ∈ w, 0 ≤ x)
    (u₁ : List ℕ) (a : ℕ) (ha : 1 ≤ a) (u₂ : List ℕ) :
    splitsCost w (u₁ ++ 1 :: (a - 1) :: u₂) ≤ splitsCost w (u₁ ++ a :: u₂) := by
  rw [splitsCost_append, splitsCost_append]
  have hmono : splitsCost (w.drop u₁.sum) (1 :: (a - 1) :: u₂)
      ≤ splitsCost (w.drop u₁.sum) (a :: u₂) := by
    set w' := w.drop u₁.sum with hw'
    have hwnn : ∀ x ∈ w', 0 ≤ x := fun x hx => hw x (List.drop_subset _ _ hx)
    have hs1 : (0 : ℚ) ≤ (w'.take 1).sum :=
      List.sum_nonneg (fun x hx => hwnn x (List.take_subset _ _ hx))
    have hs2 : (0 : ℚ) ≤ ((w'.drop 1).take (a - 1)).sum :=
      List.sum_nonneg (fun x hx => hwnn x (List.drop_subset _ _ (List.take_subset _ _ hx)))
    have htake : w'.take a = w'.take 1 ++ (w'.drop 1).take (a - 1) := by
      conv_lhs => rw [show a = 1 + (a - 1) from by omega]
      rw [List.take_add]
    have hdrops : (w'.drop 1).drop (a - 1) = w'.drop a := by
      rw [List.drop_drop]
      congr 1
      omega
    simp only [splitsCost, blockSums, List.map_cons, List.sum_cons, hdrops, htake,
      List.sum_append]
    set s1 := (w'.take 1).sum
    set s2 := ((w'.drop 1).take (a - 1)).sum
    have hrest : ((blockSums (w'.drop a) u₂).map (fun b => b * b)).sum
        = ((blockSums (w'.drop a) u₂).map (fun b => b * b)).sum := rfl
    nlinarith [mul_nonneg hs1 hs2]
  linarith

/-- Any positive composition can be refined into a longer positive
composition of the same total with no larger cost, as long as the target
length fits under the total. -/
lemma exists_pos_comp_refine (w : List ℚ) (hw : ∀ x ∈ w, 0 ≤ x) :
    ∀ (d : ℕ) (l : List ℕ), (∀ x ∈ l, 1 ≤ x) → l.length + d ≤ l.sum →
    ∃ l2 : List ℕ, (∀ x ∈ l2, 1 ≤ x) ∧ l2.length = l.length + d ∧ l2.sum = l.sum ∧
      splitsCost w l2 ≤ splitsCost w l := by
  intro d
  induction d with
  | zero => exact fun l hpos _ => ⟨l, hpos, rfl, rfl, le_refl _⟩
  | succ m ih =>
    intro l hpos hle
    have hlt : l.length < l.sum := by omega
    obtain ⟨u₁, a, u₂, heq, ha⟩ := exists_ge_two l hpos hlt
    have hpos' : ∀ x ∈ u₁ ++ 1 :: (a - 1) :: u₂, 1 ≤ x := by
      intro x hx
      rcases List.mem_append.mp hx with hx | hx
      · exact hpos x (by rw [heq]; exact List.mem_append.mpr (Or.inl hx))
      · rcases List.mem_cons.mp hx with rfl | hx
        · exact le_refl 1
        · rcases List.mem_cons.mp hx with rfl | hx
          · omega
          · exact hpos x (by
              rw [heq]
              exact List.mem_append.mpr (Or.inr (List.mem_cons_of_mem _ hx)))
    have hlen' : (u₁ ++ 1 :: (a - 1) :: u₂).length = l.length + 1 := by
      rw [heq]
      simp only [List.length_append, List.length_cons]
      omega
    have hsum' : (u₁ ++ 1 :: (a - 1) :: u₂).sum = l.sum := by
      rw [heq]; simp; omega
    obtain ⟨l2, h2pos, h2len, h2sum, h2cost⟩ := ih (u₁ ++ 1 :: (a - 1) :: u₂) hpos'
      (by rw [hlen', hsum']; omega)
    refine ⟨l2, h2pos, by rw [h2len, hlen']; omega, by rw [h2sum, hsum'], ?_⟩
    calc splitsCost w l2 ≤ splitsCost w (u₁ ++ 1 :: (a - 1) :: u₂) := h2cost
    _ ≤ splitsCost w (u₁ ++ a :: u₂) := splitsCost_split_le w hw u₁ a (by omega) u₂
    _ = splitsCost w l := by rw [heq]

/-- Unfolding of the recursive arm of buildTable. -/
lemma buildTable_succ_succ (w : List ℚ) (m trim : ℕ) :
    buildTable w (m + 2) trim
      = ((List.range (w.length - trim + 1 - (m + 2))).map (fun j =>
          ((buildTable w (m + 1) (trim + (j + 1))).1
            + segmentCost w (w.length - trim - (j + 1)) (j + 1), j + 1))).foldl
          updBest (-1, 0) := by
  simp only [buildTable]

/-- Central facts about the dynamic-programming table, by strong induction
on the number of partitions: the stored rightmost length is a legal block
size, the stored cost is nonnegative and below the cost of every positive
composition of the remaining prefix, the base row stores the whole prefix,
and each recursive row satisfies its own Bellman equation at the stored
length. -/
lemma buildTable_spec (w : List ℚ) : ∀ k trim, 1 ≤ k → k + trim ≤ w.length →
    (1 ≤ (buildTable w k trim).2 ∧ (buildTable w k trim).2 + k ≤ w.length - trim + 1) ∧
    0 ≤ (buildTable w k trim).1 ∧
    (∀ l, Comp l k (w.length - trim) →
      (buildTable w k trim).1 ≤ rcost w (w.length - trim) l) ∧
    (k = 1 → (buildTable w k trim).2 = w.length - trim ∧
      (buildTable w k trim).1 = segmentCost w 0 (w.length - trim)) ∧
    (2 ≤ k → (buildTable w k trim).1
        = (buildTable w (k - 1) (trim + (buildTable w k trim).2)).1
          + segmentCost w (w.length - trim - (buildTable w k trim).2)
              (buildTable w k trim).2) := by
  intro k
  induction k using Nat.strong_induction_on with
  | _ k ih =>
    intro trim hk1 hkt
    by_cases hk_eq : k = 1
    · subst hk_eq
      have hbt : buildTable w 1 trim
          = (segmentCost w 0 (w.length - trim), w.length - trim) := by
        simp only [buildTable]
      rw [hbt]
      refine ⟨⟨by omega, by omega⟩, mul_self_nonneg _, ?_, fun _ => ⟨rfl, rfl⟩,
        fun h => absurd h (by omega)⟩
      intro l hl
      obtain ⟨hlen, _, hsum⟩ := hl
      obtain ⟨a, rfl⟩ := List.length_eq_one.mp hlen
      have ha : a = w.length - trim := by simpa using hsum
      rw [← ha]
      show segmentCost w 0 a ≤ segmentCost w (a - a) a + rcost w (a - a) []
      simp [rcost, Nat.sub_self]
    · have hk2 : 2 ≤ k := by omega
      obtain ⟨m, rfl⟩ : ∃ m, k = m + 2 := ⟨k - 2, by omega⟩
      rw [buildTable_succ_succ]
      set F : ℕ → ℚ × ℕ := fun j =>
        ((buildTable w (m + 1) (trim + (j + 1))).1
          + segmentCost w (w.length - trim - (j + 1)) (j + 1), j + 1) with hF
      set cnt := w.length - trim + 1 - (m + 2) with hcnt_def
      have hcnt1 : 1 ≤ cnt := by omega
      have hsub : ∀ j, j < cnt →
          (1 ≤ (buildTable w (m + 1) (trim + (j + 1))).2 ∧
            (buildTable w (m + 1) (trim + (j + 1))).2 + (m + 1)
              ≤ w.length - (trim + (j + 1)) + 1) ∧
          0 ≤ (buildTable w (m + 1) (trim + (j + 1))).1 ∧
          (∀ l, Comp l (m + 1) (w.length - (trim + (j + 1))) →
            (buildTable w (m + 1) (trim + (j + 1))).1
              ≤ rcost w (w.length - (trim + (j + 1))) l) ∧ _ ∧ _ :=
        fun j hj => ih (m + 1) (by omega) (trim + (j + 1)) (by omega) (by omega)
      have hmem_nonneg : ∀ p ∈ (List.range cnt).map F, 0 ≤ p.1 := by
        intro p hp
        obtain ⟨j, hj, rfl⟩ := List.mem_map.mp hp
        have hj' := List.mem_range.mp hj
        exact add_nonneg ((hsub j hj').2.1) (mul_self_nonneg _)
      obtain ⟨c, hc⟩ : ∃ c, cnt = c + 1 := ⟨cnt - 1, by omega⟩
      have hcons : (List.range cnt).map F
          = F 0 :: (List.range c).map (F ∘ Nat.succ) := by
        rw [hc, List.range_succ_eq_map, List.map_cons, List.map_map]
      have hfold1 : ((List.range cnt).map F).foldl updBest (-1, 0)
          = ((List.range c).map (F ∘ Nat.succ)).foldl updBest (F 0) := by
        rw [hcons, foldl_updBest_sentinel]
      have hres_mem : ((List.range cnt).map F).foldl updBest (-1, 0)
          ∈ (List.range cnt).map F := by
        rw [hfold1]
        rcases foldl_updBest_result ((List.range c).map (F ∘ Nat.succ)) (F 0) with h | h
        · rw [h, hcons]
          exact List.mem_cons_self _ _
        · rw [hcons]
          exact List.mem_cons_of_mem _ h
      have hres_le : ∀ p ∈ (List.range cnt).map F,
          (((List.range cnt).map F).foldl updBest (-1, 0)).1 ≤ p.1 := by
        intro p hp
        rw [hfold1]
        obtain ⟨hle_acc, hle_all⟩ := foldl_updBest_le ((List.range c).map (F ∘ Nat.succ)) (F 0)
          (hmem_nonneg (F 0) (by rw [hcons]; exact List.mem_cons_self _ _))
          (fun q hq => hmem_nonneg q (by rw [hcons]; exact List.mem_cons_of_mem _ hq))
        rw [hcons] at hp
        rcases List.mem_cons.mp hp with rfl | hp
        · exact hle_acc
        · exact hle_all p hp
      obtain ⟨j, hj, hfj⟩ := List.mem_map.mp hres_mem
      have hj' := List.mem_range.mp hj
      have hr2 : (((List.range cnt).map F).foldl updBest (-1, 0)).2 = j + 1 := by
        rw [← hfj]
      refine ⟨⟨by omega, by omega⟩, hmem_nonneg _ hres_mem, ?_, ?_, ?_⟩
      · intro l hl
        obtain ⟨hlen, hpos, hsum⟩ := hl
        rcases l with _ | ⟨r0, rest⟩
        · simp at hlen
        · have hr0 : 1 ≤ r0 := hpos r0 (List.mem_cons_self _ _)
          have hrest_pos : ∀ x ∈ rest, 1 ≤ x :=
            fun x hx => hpos x (List.mem_cons_of_mem _ hx)
          have hrest_len : rest.length = m + 1 := by simpa using hlen
          have hrest_sum_ge : m + 1 ≤ rest.sum := by
            have := length_le_sum_of_pos rest hrest_pos
            omega
          have hsum' : r0 + rest.sum = w.length - trim := by simpa using hsum
          have hr0_le : r0 - 1 < cnt := by omega
          have hFr0_mem : F (r0 - 1) ∈ (List.range cnt).map F :=
            List.mem_map.mpr ⟨r0 - 1, List.mem_range.mpr hr0_le, rfl⟩
          have hstep := hres_le (F (r0 - 1)) hFr0_mem
          have hr0_succ : r0 - 1 + 1 = r0 := by omega
          rw [hF] at hstep
          simp only [hr0_succ] at hstep
          have hrest_comp : Comp rest (m + 1) (w.length - (trim + r0)) :=
            ⟨hrest_len, hrest_pos, by omega⟩
          have hihmin := (hsub (r0 - 1) hr0_le).2.2.1
          rw [hr0_succ] at hihmin
          have hihmin' := hihmin rest hrest_comp
          have hrc : rcost w (w.length - trim) (r0 :: rest)
              = segmentCost w (w.length - trim - r0) r0
                + rcost w (w.length - trim - r0) rest := rfl
          rw [hrc]
          have heqn : w.length - (trim + r0) = w.length - trim - r0 := by omega
          rw [heqn] at hihmin'
          linarith
      · intro h
        exact absurd h (by omega)
      · intro _
        rw [← hfj, hF]
        rfl

/-- The splits reconstructed from the table form a positive composition of
the remaining prefix whose right-to-left cost is the stored optimal
cost. -/
lemma construct_splits_spec (w : List ℚ) : ∀ k trim, 1 ≤ k → k + trim ≤ w.length →
    Comp (construct_splits w k trim) k (w.length - trim) ∧
    rcost w (w.length - trim) (construct_splits w k trim).reverse
      = (buildTable w k trim).1 := by
  intro k
  induction k using Nat.strong_induction_on with
  | _ k ih =>
    intro trim hk1 hkt
    by_cases hk_eq : k = 1
    · subst hk_eq
      obtain ⟨hbase2, hbase1⟩ := (buildTable_spec w 1 trim (le_refl 1) hkt).2.2.2.1 rfl
      have hcs : construct_splits w 1 trim = [(buildTable w 1 trim).2] := by
        simp only [construct_splits, List.nil_append]
      rw [hcs, hbase2]
      refine ⟨⟨rfl, ?_, by simp⟩, ?_⟩
      · intro x hx
        rw [List.mem_singleton.mp hx]
        omega
      · rw [List.reverse_singleton]
        show segmentCost w (w.length - trim - (w.length - trim)) (w.length - trim)
            + rcost w (w.length - trim - (w.length - trim)) [] = _
        rw [Nat.sub_self, hbase1]
        simp [rcost]
    · have hk2 : 2 ≤ k := by omega
      obtain ⟨m, rfl⟩ : ∃ m, k = m + 2 := ⟨k - 2, by omega⟩
      obtain ⟨⟨hr1, hr2⟩, _, _, _, heqn⟩ := buildTable_spec w (m + 2) trim (by omega) hkt
      have heq := heqn (by omega)
      have hm21 : m + 2 - 1 = m + 1 := rfl
      rw [hm21] at heq
      set r := (buildTable w (m + 2) trim).2 with hr
      have hcs : construct_splits w (m + 2) trim
          = construct_splits w (m + 1) (trim + r) ++ [r] := by
        simp only [construct_splits]
      obtain ⟨⟨hlen2, hpos2, hsum2⟩, hcost2⟩ := ih (m + 1) (by omega) (trim + r)
        (by omega) (by omega)
      refine ⟨⟨?_, ?_, ?_⟩, ?_⟩
      · rw [hcs]
        simp [hlen2]
      · intro x hx
        rw [hcs] at hx
        rcases List.mem_append.mp hx with hx | hx
        · exact hpos2 x hx
        · rw [List.mem_singleton.mp hx]
          exact hr1
      · rw [hcs, List.sum_append, hsum2, List.sum_singleton]
        omega
      · rw [hcs, List.reverse_append, List.reverse_singleton, List.singleton_append]
        show segmentCost w (w.length - trim - r) r
            + rcost w (w.length - trim - r)
                (construct_splits w (m + 1) (trim + r)).reverse = _
        have heq2 : w.length - (trim + r) = w.length - trim - r := by omega
        rw [heq2] at hcost2
        rw [hcost2, heq]
        ring

/-- C1: for nonnegative weights and a partition count `K` with
`1 ≤ K ≤ N`, find_partition returns `K` (automatically nonnegative) block
sizes summing to `N`, and no list of `K` block sizes summing to `N` — that
is, no contiguous partition of the given ordering into `K` blocks, empty
blocks allowed — has a strictly smaller sum over blocks of squared block
totals. -/
theorem find_partition_optimal (w : List ℚ) (K : ℕ)
    (hw : ∀ x ∈ w, 0 ≤ x) (hK1 : 1 ≤ K) (hKN : K ≤ w.length) :
    (find_partition w K).length = K ∧ (find_partition w K).sum = w.length ∧
    ∀ splits : List ℕ, splits.length = K → splits.sum = w.length →
      splitsCost w (find_partition w K) ≤ splitsCost w splits := by
  by_cases h1 : K = 1
  · subst h1
    have hfp : find_partition w 1 = [w.length] := by rw [find_partition, if_pos rfl]
    rw [hfp]
    refine ⟨rfl, by simp, ?_⟩
    intro splits hlen hsum
    obtain ⟨a, rfl⟩ := List.length_eq_one.mp hlen
    have : a = w.length := by simpa using hsum
    rw [this]
  · by_cases h2 : w.length ≤ K
    · have hKN2 : K = w.length := le_antisymm hKN h2
      have hfp : find_partition w K = List.replicate K 1 := by
        rw [find_partition, if_neg h1, if_pos h2]
        refine List.eq_replicate_iff.mpr ⟨by simp, ?_⟩
        intro b hb
        obtain ⟨i, hi, rfl⟩ := List.mem_map.mp hb
        have := List.mem_range.mp hi
        rw [if_pos (by omega)]
      rw [hfp]
      refine ⟨by simp, by simp [hKN2], ?_⟩
      intro splits hlen hsum
      have hfpos : ∀ x ∈ splits.filter (fun s => s ≠ 0), 1 ≤ x := by
        intro x hx
        have := List.of_mem_filter hx
        simp at this
        omega
      have hfsum : (splits.filter (fun s => s ≠ 0)).sum = w.length := by
        rw [sum_filter_ne_zero, hsum]
      have hflen : (splits.filter (fun s => s ≠ 0)).length ≤ K := by
        calc (splits.filter (fun s => s ≠ 0)).length ≤ splits.length :=
              List.length_filter_le _ _
        _ = K := hlen
      obtain ⟨l2, h2pos, h2len, h2sum, h2cost⟩ :=
        exists_pos_comp_refine w hw (K - (splits.filter (fun s => s ≠ 0)).length)
          (splits.filter (fun s => s ≠ 0)) hfpos (by rw [hfsum]; omega)
      have h2len' : l2.length = K := by omega
      have h2ones : l2 = List.replicate K 1 := by
        rw [← h2len']
        exact eq_replicate_one l2 h2pos (by rw [h2sum, hfsum]; omega)
      calc splitsCost w (List.replicate K 1) = splitsCost w l2 := by rw [h2ones]
      _ ≤ splitsCost w (splits.filter (fun s => s ≠ 0)) := h2cost
      _ = splitsCost w splits := splitsCost_filter splits w
    · have h2' : K < w.length := lt_of_not_ge h2
      have hK2 : 2 ≤ K := by omega
      have hfp : find_partition w K = construct_splits w K 0 := by
        rw [find_partition, if_neg h1, if_neg h2]
      obtain ⟨⟨hlen, hposl, hsum⟩, hcost⟩ :=
        construct_splits_spec w K 0 hK1 (by omega)
      have hn0 : w.length - 0 = w.length := by omega
      rw [hn0] at hsum hcost
      refine ⟨by rw [hfp]; exact hlen, by rw [hfp]; exact hsum, ?_⟩
      intro splits hlen2 hsum2
      have hfpos : ∀ x ∈ splits.filter (fun s => s ≠ 0), 1 ≤ x := by
        intro x hx
        have := List.of_mem_filter hx
        simp at this
        omega
      have hfsum : (splits.filter (fun s => s ≠ 0)).sum = w.length := by
        rw [sum_filter_ne_zero, hsum2]
      have hflen : (splits.filter (fun s => s ≠ 0)).length ≤ K := by
        calc (splits.filter (fun s => s ≠ 0)).length ≤ splits.length :=
              List.length_filter_le _ _
        _ = K := hlen2
      obtain ⟨l2, h2pos, h2len, h2sum, h2cost⟩ :=
        exists_pos_comp_refine w hw (K - (splits.filter (fun s => s ≠ 0)).length)
          (splits.filter (fun s => s ≠ 0)) hfpos (by rw [hfsum]; omega)
      have h2len' : l2.length = K := by omega
      have h2sum' : l2.sum = w.length := by rw [h2sum, hfsum]
      have hbridge_fp : splitsCost w (construct_splits w K 0)
          = rcost w w.length (construct_splits w K 0).reverse := by
        have := splitsCost_reverse_rcost (construct_splits w K 0).reverse w
        rw [List.reverse_reverse, List.sum_reverse, hsum] at this
        exact this
      have hbridge_l2 : splitsCost w l2 = rcost w w.length l2.reverse := by
        have := splitsCost_reverse_rcost l2.reverse w
        rw [List.reverse_reverse, List.sum_reverse, h2sum'] at this
        exact this
      have hcomp_rev : Comp l2.reverse K (w.length - 0) := by
        refine ⟨by simp [h2len'], ?_, by rw [List.sum_reverse, h2sum']; omega⟩
        intro x hx
        exact h2pos x (List.mem_reverse.mp hx)
      have hmin := (buildTable_spec w K 0 hK1 (by omega)).2.2.1 l2.reverse hcomp_rev
      rw [hn0] at hmin
      calc splitsCost w (find_partition w K)
          = rcost w w.length (construct_splits w K 0).reverse := by
            rw [hfp, hbridge_fp]
      _ = (buildTable w K 0).1 := hcost
      _ ≤ rcost w w.length l2.reverse := hmin
      _ = splitsCost w l2 := hbridge_l2.symm
      _ ≤ splitsCost w (splits.filter (fun s => s ≠ 0)) := h2cost
      _ = splitsCost w splits := splitsCost_filter splits w

/-! ## Theorems for the zone-setup claim -/

/-- Membership after updating one slot of a list-valued table by appending
one element. -/
lemma mem_update_append {f : ℕ → List ℕ} {key v a m : ℕ} :
    m ∈ Function.update f key (f key ++ [v]) a ↔ m ∈ f a ∨ (a = key ∧ m = v) := by
  by_cases ha : a = key
  · subst ha
    rw [Function.update_same]
    simp [List.mem_append]
  · rw [Function.update_noteq ha]
    simp [ha]

/-- Effect of one neighbor visit of pass two: the import invariant is
preserved, the import lists grow by exactly the neighbor when it is
foreign and unseen, and each export list either stays put (with the flag
telling why) or gains the local node once. -/
lemma procStep_spec (z : ℕ) (zone : ℕ → ℕ) (nid onid : ℕ) (acc : ZoneAcc)
    (expflag : ℕ → Bool) (hinv : ImportInv z zone acc) :
    ImportInv z zone (procStep z zone nid onid acc expflag).1 ∧
    (∀ a m, m ∈ (procStep z zone nid onid acc expflag).1.import_node_list a ↔
      (m ∈ acc.import_node_list a ∨ (zone m = a ∧ a ≠ z ∧ m = onid))) ∧
    (∀ a,
      ((procStep z zone nid onid acc expflag).1.export_node_list a
          = acc.export_node_list a ∧
        (procStep z zone nid onid acc expflag).2 a = expflag a ∧
        (expflag a = true ∨ ¬ (zone onid = a ∧ a ≠ z))) ∨
      ((procStep z zone nid onid acc expflag).1.export_node_list a
          = acc.export_node_list a ++ [nid] ∧
        expflag a = false ∧ (procStep z zone nid onid acc expflag).2 a = true ∧
        zone onid = a ∧ a ≠ z)) := by
  obtain ⟨h1, h2, h3⟩ := hinv
  have himp_keep : ∀ a m, (zone m = a ∧ a ≠ z ∧ m = onid) →
      ¬ (zone onid ≠ z ∧ acc.viewed_nodes onid = false) →
      m ∈ acc.import_node_list a := by
    rintro a m ⟨hz, hne, rfl⟩ hnc
    rcases not_and_or.mp hnc with hzz | hv
    · push_neg at hzz
      exact absurd (hz.symm.trans hzz) hne
    · have hvt : acc.viewed_nodes m = true := by
        rcases Bool.eq_false_or_eq_true (acc.viewed_nodes m) with ht | hf
        · exact ht
        · exact absurd hf hv
      obtain ⟨b, hb⟩ := (h1 m).mp hvt
      have hab : b = a := ((h2 b m hb).1).symm.trans hz
      rwa [hab] at hb
  have hinv1 : ImportInv z zone
      (if zone onid ≠ z ∧ acc.viewed_nodes onid = false then
        { acc with
          viewed_nodes := Function.update acc.viewed_nodes onid true
          , import_node_list := (Function.update acc.import_node_list (zone onid)
            (acc.import_node_list (zone onid) ++ [onid])) }
      else acc) ∧
      ∀ a m, m ∈ (if zone onid ≠ z ∧ acc.viewed_nodes onid = false then
        { acc with
          viewed_nodes := Function.update acc.viewed_nodes onid true
          , import_node_list := (Function.update acc.import_node_list (zone onid)
            (acc.import_node_list (zone onid) ++ [onid])) }
      else acc).import_node_list a ↔
        (m ∈ acc.import_node_list a ∨ (zone m = a ∧ a ≠ z ∧ m = onid)) := by
    by_cases hc1 : zone onid ≠ z ∧ acc.viewed_nodes onid = false
    · rw [if_pos hc1]
      have hnotin : ∀ b, onid ∉ acc.import_node_list b := by
        intro b hb
        have : acc.viewed_nodes onid = true := (h1 onid).mpr ⟨b, hb⟩
        rw [hc1.2] at this
        exact Bool.false_ne_true this
      refine ⟨⟨?_, ?_, ?_⟩, ?_⟩
      · intro m
        show Function.update acc.viewed_nodes onid true m = true ↔ _
        rw [Function.update_apply]
        by_cases hm : m = onid
        · subst hm
          simp only [if_pos rfl]
          exact ⟨fun _ => ⟨zone m, mem_update_append.mpr (Or.inr ⟨rfl, rfl⟩)⟩,
            fun _ => rfl⟩
        · rw [if_neg hm, h1 m]
          constructor
          · rintro ⟨b, hb⟩
            exact ⟨b, mem_update_append.mpr (Or.inl hb)⟩
          · rintro ⟨b, hb⟩
            rcases mem_update_append.mp hb with hb | ⟨_, hmo⟩
            · exact ⟨b, hb⟩
            · exact absurd hmo hm
      · intro a m hm
        rcases mem_update_append.mp hm with hm | ⟨rfl, rfl⟩
        · exact h2 a m hm
        · exact ⟨rfl, hc1.1⟩
      · intro a
        show (Function.update acc.import_node_list (zone onid) _ a).Nodup
        by_cases ha : a = zone onid
        · subst ha
          rw [Function.update_same, List.nodup_append]
          refine ⟨h3 (zone onid), List.nodup_singleton onid, ?_⟩
          intro x hx hx2
          rw [List.mem_singleton.mp hx2] at hx
          exact hnotin (zone onid) hx
        · rw [Function.update_noteq ha]
          exact h3 a
      · intro a m
        show m ∈ Function.update acc.import_node_list (zone onid) _ a ↔ _
        rw [mem_update_append]
        constructor
        · rintro (hm | ⟨rfl, rfl⟩)
          · exact Or.inl hm
          · exact Or.inr ⟨rfl, hc1.1, rfl⟩
        · rintro (hm | ⟨hz, hne, rfl⟩)
          · exact Or.inl hm
          · exact Or.inr ⟨hz.symm, rfl⟩
    · rw [if_neg hc1]
      refine ⟨⟨h1, h2, h3⟩, ?_⟩
      intro a m
      constructor
      · exact Or.inl
      · rintro (hm | hm)
        · exact hm
        · exact himp_keep a m hm hc1
  by_cases hc2 : zone onid ≠ z ∧ expflag (zone onid) = false
  · have hps : procStep z zone nid onid acc expflag
        = ({ (if zone onid ≠ z ∧ acc.viewed_nodes onid = false then
            { acc with
              viewed_nodes := Function.update acc.viewed_nodes onid true
              , import_node_list := (Function.update acc.import_node_list (zone onid)
                (acc.import_node_list (zone onid) ++ [onid])) }
          else acc) with
            export_node_list := (Function.update
              (if zone onid ≠ z ∧ acc.viewed_nodes onid = false then
                { acc with
                  viewed_nodes := Function.update acc.viewed_nodes onid true
                  , import_node_list := (Function.update acc.import_node_list (zone onid)
                    (acc.import_node_list (zone onid) ++ [onid])) }
              else acc).export_node_list (zone onid)
              ((if zone onid ≠ z ∧ acc.viewed_nodes onid = false then
                { acc with
                  viewed_nodes := Function.update acc.viewed_nodes onid true
                  , import_node_list := (Function.update acc.import_node_list (zone onid)
                    (acc.import_node_list (zone onid) ++ [onid])) }
              else acc).export_node_list (zone onid) ++ [nid])) },
         Function.update expflag (zone onid) true) := by
      rw [procStep, if_pos hc2]
    have hexp_base : (if zone onid ≠ z ∧ acc.viewed_nodes onid = false then
        { acc with
          viewed_nodes := Function.update acc.viewed_nodes onid true
          , import_node_list := (Function.update acc.import_node_list (zone onid)
            (acc.import_node_list (zone onid) ++ [onid])) }
      else acc).export_node_list = acc.export_node_list := by
      by_cases hc1 : zone onid ≠ z ∧ acc.viewed_nodes onid = false
      · rw [if_pos hc1]
      · rw [if_neg hc1]
    rw [hps]
    refine ⟨⟨hinv1.1.1, hinv1.1.2.1, hinv1.1.2.2⟩, hinv1.2, ?_⟩
    intro a
    by_cases ha : a = zone onid
    · subst ha
      right
      refine ⟨?_, hc2.2, Function.update_same _ _ _, rfl, hc2.1⟩
      show Function.update _ (zone onid) _ (zone onid) = _
      rw [Function.update_same, hexp_base]
    · left
      refine ⟨?_, Function.update_noteq ha _ _, Or.inr ?_⟩
      · show Function.update _ (zone onid) _ a = _
        rw [Function.update_noteq ha, hexp_base]
      · rintro ⟨hza, _⟩
        exact ha hza.symm
  · have hps : procStep z zone nid onid acc expflag
        = ((if zone onid ≠ z ∧ acc.viewed_nodes onid = false then
            { acc with
              viewed_nodes := Function.update acc.viewed_nodes onid true
              , import_node_list := (Function.update acc.import_node_list (zone onid)
                (acc.import_node_list (zone onid) ++ [onid])) }
          else acc), expflag) := by
      rw [procStep, if_neg hc2]
    have hexp_base : (if zone onid ≠ z ∧ acc.viewed_nodes onid = false then
        { acc with
          viewed_nodes := Function.update acc.viewed_nodes onid true
          , import_node_list := (Function.update acc.import_node_list (zone onid)
            (acc.import_node_list (zone onid) ++ [onid])) }
      else acc).export_node_list = acc.export_node_list := by
      by_cases hc1 : zone onid ≠ z ∧ acc.viewed_nodes onid = false
      · rw [if_pos hc1]
      · rw [if_neg hc1]
    rw [hps]
    refine ⟨⟨hinv1.1.1, hinv1.1.2.1, hinv1.1.2.2⟩, hinv1.2, ?_⟩
    intro a
    left
    refine ⟨by rw [hexp_base], rfl, ?_⟩
    by_cases hmatch : zone onid = a ∧ a ≠ z
    · left
      rcases not_and_or.mp hc2 with hzz | hv
      · push_neg at hzz
        exact absurd (hmatch.1.symm.trans hzz) hmatch.2
      · rw [← hmatch.1]
        rcases Bool.eq_false_or_eq_true (expflag (zone onid)) with ht | hf
        · exact ht
        · exact absurd hf hv
    · exact Or.inr hmatch

/-- Effect of the whole inner loop of pass two for one local node: the
lists of imports absorb exactly the foreign unseen members of the adjacency
tail, and each export list either stays put (no neighbor of that zone, or
the flag was already set) or gains the local node exactly once. -/
lemma procNeighbors_spec (z : ℕ) (zone : ℕ → ℕ) (nid : ℕ) :
    ∀ (ns : List ℕ) (acc : ZoneAcc) (expflag : ℕ → Bool),
    ImportInv z zone acc →
    (ImportInv z zone (procNeighbors z zone nid ns acc expflag) ∧
     (∀ a m, m ∈ (procNeighbors z zone nid ns acc expflag).import_node_list a ↔
        m ∈ acc.import_node_list a ∨ (zone m = a ∧ a ≠ z ∧ m ∈ ns)) ∧
     (∀ a, ((procNeighbors z zone nid ns acc expflag).export_node_list a
              = acc.export_node_list a ∧
            (expflag a = true ∨ ¬ ∃ o, o ∈ ns ∧ zone o = a ∧ a ≠ z)) ∨
          ((procNeighbors z zone nid ns acc expflag).export_node_list a
              = acc.export_node_list a ++ [nid] ∧
            expflag a = false ∧ ∃ o, o ∈ ns ∧ zone o = a ∧ a ≠ z))) := by
  intro ns
  induction ns with
  | nil =>
    intro acc expflag hinv
    refine ⟨hinv, ?_, ?_⟩
    · intro a m
      simp [procNeighbors]
    · intro a
      left
      refine ⟨rfl, Or.inr ?_⟩
      rintro ⟨o, ho, _⟩
      simp at ho
  | cons onid rest ih =>
    intro acc expflag hinv
    obtain ⟨hinv1, himp1, hexp1⟩ := procStep_spec z zone nid onid acc expflag hinv
    have hun : procNeighbors z zone nid (onid :: rest) acc expflag
        = procNeighbors z zone nid rest (procStep z zone nid onid acc expflag).1
            (procStep z zone nid onid acc expflag).2 := rfl
    rw [hun]
    obtain ⟨hinv2, himp2, hexp2⟩ := ih (procStep z zone nid onid acc expflag).1
      (procStep z zone nid onid acc expflag).2 hinv1
    refine ⟨hinv2, ?_, ?_⟩
    · intro a m
      rw [himp2 a m, himp1 a m]
      constructor
      · rintro ((hm | ⟨hz, hne, rfl⟩) | ⟨hz, hne, hmem⟩)
        · exact Or.inl hm
        · exact Or.inr ⟨hz, hne, List.mem_cons_self _ _⟩
        · exact Or.inr ⟨hz, hne, List.mem_cons_of_mem _ hmem⟩
      · rintro (hm | ⟨hz, hne, hmem⟩)
        · exact Or.inl (Or.inl hm)
        · rcases List.mem_cons.mp hmem with rfl | hmem
          · exact Or.inl (Or.inr ⟨hz, hne, rfl⟩)
          · exact Or.inr ⟨hz, hne, hmem⟩
    · intro a
      rcases hexp1 a with ⟨he1, hf1, hwhy1⟩ | ⟨he1, hf1, hf1t, hza, hnez⟩
      · rcases hexp2 a with ⟨he2, hwhy2⟩ | ⟨he2, hf2, hex2⟩
        · left
          refine ⟨by rw [he2, he1], ?_⟩
          rcases hwhy1 with ht | hno1
          · exact Or.inl ht
          · rcases hwhy2 with ht2 | hno2
            · exact Or.inl (by rw [← hf1]; exact ht2)
            · right
              rintro ⟨o, ho, hoz, hone⟩
              rcases List.mem_cons.mp ho with rfl | ho
              · exact hno1 ⟨hoz, hone⟩
              · exact hno2 ⟨o, ho, hoz, hone⟩
        · right
          refine ⟨by rw [he2, he1], by rw [← hf1]; exact hf2, ?_⟩
          obtain ⟨o, ho, hoz, hone⟩ := hex2
          exact ⟨o, List.mem_cons_of_mem _ ho, hoz, hone⟩
      · rcases hexp2 a with ⟨he2, _⟩ | ⟨_, hf2, _⟩
        · right
          exact ⟨by rw [he2, he1], hf1, ⟨onid, List.mem_cons_self _ _, hza, hnez⟩⟩
        · exact absurd (hf2.symm.trans hf1t) Bool.false_ne_true

/-- Effect of pass two over a duplicate-free prefix of the local node
list, starting from any accumulator whose exports avoid that prefix. -/
lemma pass2_fold_spec (g : graph_t) (z : ℕ) :
    ∀ (L : List ℕ) (acc : ZoneAcc),
    ImportInv z g.zone_id acc →
    L.Nodup →
    (∀ a, (acc.export_node_list a).Nodup) →
    (∀ a x, x ∈ acc.export_node_list a → x ∉ L) →
    (ImportInv z g.zone_id
      (L.foldl (fun acc nid =>
        procNeighbors z g.zone_id nid (adjTail g nid) acc (fun _ => false)) acc) ∧
     (∀ a m, m ∈ (L.foldl (fun acc nid =>
          procNeighbors z g.zone_id nid (adjTail g nid) acc (fun _ => false))
            acc).import_node_list a ↔
        m ∈ acc.import_node_list a ∨
          (g.zone_id m = a ∧ a ≠ z ∧ ∃ n, n ∈ L ∧ m ∈ adjTail g n)) ∧
     (∀ a x, x ∈ (L.foldl (fun acc nid =>
          procNeighbors z g.zone_id nid (adjTail g nid) acc (fun _ => false))
            acc).export_node_list a ↔
        x ∈ acc.export_node_list a ∨
          (x ∈ L ∧ a ≠ z ∧ ∃ o, o ∈ adjTail g x ∧ g.zone_id o = a)) ∧
     (∀ a, ((L.foldl (fun acc nid =>
          procNeighbors z g.zone_id nid (adjTail g nid) acc (fun _ => false))
            acc).export_node_list a).Nodup)) := by
  intro L
  induction L with
  | nil =>
    intro acc hinv _ hnodup _
    refine ⟨hinv, ?_, ?_, hnodup⟩
    · intro a m
      simp
    · intro a x
      simp
  | cons nid L' ih =>
    intro acc hinv hL hnodup hdisj
    obtain ⟨hnidL, hL'⟩ := List.nodup_cons.mp hL
    obtain ⟨hinv1, himp1, hexp1⟩ :=
      procNeighbors_spec z g.zone_id nid (adjTail g nid) acc (fun _ => false) hinv
    have hexp1' : ∀ a,
        ((procNeighbors z g.zone_id nid (adjTail g nid) acc
            (fun _ => false)).export_node_list a = acc.export_node_list a ∧
          ¬ ∃ o, o ∈ adjTail g nid ∧ g.zone_id o = a ∧ a ≠ z) ∨
        ((procNeighbors z g.zone_id nid (adjTail g nid) acc
            (fun _ => false)).export_node_list a = acc.export_node_list a ++ [nid] ∧
          ∃ o, o ∈ adjTail g nid ∧ g.zone_id o = a ∧ a ≠ z) := by
      intro a
      rcases hexp1 a with ⟨he, hwhy⟩ | ⟨he, _, hex⟩
      · rcases hwhy with ht | hno
        · exact absurd ht Bool.false_ne_true
        · exact Or.inl ⟨he, hno⟩
      · exact Or.inr ⟨he, hex⟩
    have hstep_nodup : ∀ a,
        ((procNeighbors z g.zone_id nid (adjTail g nid) acc
           (fun _ => false)).export_node_list a).Nodup := by
      intro a
      rcases hexp1' a with ⟨he, _⟩ | ⟨he, _⟩
      · rw [he]; exact hnodup a
      · rw [he, List.nodup_append]
        refine ⟨hnodup a, List.nodup_singleton nid, ?_⟩
        intro x hx hx2
        rw [List.mem_singleton.mp hx2] at hx
        exact hdisj a nid hx (List.mem_cons_self _ _)
    have hstep_disj : ∀ a x,
        x ∈ (procNeighbors z g.zone_id nid (adjTail g nid) acc
          (fun _ => false)).export_node_list a → x ∉ L' := by
      intro a x hx
      rcases hexp1' a with ⟨he, _⟩ | ⟨he, _⟩
      · rw [he] at hx
        exact fun hmem => hdisj a x hx (List.mem_cons_of_mem _ hmem)
      · rw [he] at hx
        rcases List.mem_append.mp hx with hx | hx
        · exact fun hmem => hdisj a x hx (List.mem_cons_of_mem _ hmem)
        · rw [List.mem_singleton.mp hx]
          exact hnidL
    obtain ⟨hinv2, himp2, hexp2, hnodup2⟩ :=
      ih (procNeighbors z g.zone_id nid (adjTail g nid) acc (fun _ => false))
        hinv1 hL' hstep_nodup hstep_disj
    rw [List.foldl_cons]
    refine ⟨hinv2, ?_, ?_, hnodup2⟩
    · intro a m
      rw [himp2 a m, himp1 a m]
      constructor
      · rintro ((hm | ⟨hz, hne, hmem⟩) | ⟨hz, hne, n, hn, hmem⟩)
        · exact Or.inl hm
        · exact Or.inr ⟨hz, hne, nid, List.mem_cons_self _ _, hmem⟩
        · exact Or.inr ⟨hz, hne, n, List.mem_cons_of_mem _ hn, hmem⟩
      · rintro (hm | ⟨hz, hne, n, hn, hmem⟩)
        · exact Or.inl (Or.inl hm)
        · rcases List.mem_cons.mp hn with rfl | hn
          · exact Or.inl (Or.inr ⟨hz, hne, hmem⟩)
          · exact Or.inr ⟨hz, hne, n, hn, hmem⟩
    · intro a x
      rw [hexp2 a x]
      constructor
      · rintro (hx | ⟨hxL, hne, o, ho, hoz⟩)
        · rcases hexp1' a with ⟨he, _⟩ | ⟨he, hex⟩
          · rw [he] at hx
            exact Or.inl hx
          · rw [he] at hx
            rcases List.mem_append.mp hx with hx | hx
            · exact Or.inl hx
            · obtain ⟨o, ho, hoz, hone⟩ := hex
              rw [List.mem_singleton.mp hx]
              exact Or.inr ⟨List.mem_cons_self _ _, hone, o, ho, hoz⟩
        · exact Or.inr ⟨List.mem_cons_of_mem _ hxL, hne, o, ho, hoz⟩
      · rintro (hx | ⟨hxL, hne, o, ho, hoz⟩)
        · left
          rcases hexp1' a with ⟨he, _⟩ | ⟨he, _⟩
          · rw [he]
            exact hx
          · rw [he]
            exact List.mem_append.mpr (Or.inl hx)
        · rcases List.mem_cons.mp hxL with rfl | hxL
          · left
            rcases hexp1' a with ⟨he, hno⟩ | ⟨he, _⟩
            · exact absurd ⟨o, ho, hoz, hne⟩ hno
            · rw [he]
              exact List.mem_append.mpr (Or.inr (List.mem_singleton.mpr rfl))
          · exact Or.inr ⟨hxL, hne, o, ho, hoz⟩

/-- C5: for every graph with a total zone assignment whose adjacency tails
are in range and symmetric (undirected edges stored in both directions),
and for every pair of zones: setup_zone gives zone `z` a strictly
ascending local node list; no node repeats inside any single import or
export list; and the export list of `z` to `z'` equals, as a set, the list
of imports that `z'` computes from `z` by its own setup_zone. -/
theorem setup_zone_spec (g : graph_t)
    (hnb : ∀ nid, nid < g.nnode → ∀ x ∈ adjTail g nid, x < g.nnode)
    (hsym : ∀ nid, nid < g.nnode → ∀ m ∈ adjTail g nid, nid ∈ adjTail g m)
    (z z' : ℕ) :
    ((setup_zone g z).1).Sorted (· < ·) ∧
    (∀ zid, ((setup_zone g z).2.1 zid).Nodup ∧ ((setup_zone g z).2.2 zid).Nodup) ∧
    (∀ x, x ∈ (setup_zone g z).2.2 z' ↔ x ∈ (setup_zone g z').2.1 z) := by
  have hmem_local : ∀ (zz x : ℕ),
      (x ∈ (List.range g.nnode).filter (fun nid => g.zone_id nid = zz)) ↔
        (x < g.nnode ∧ g.zone_id x = zz) := by
    intro zz x
    rw [List.mem_filter, List.mem_range]
    simp
  have hinv0 : ∀ zz, ImportInv zz g.zone_id ⟨fun _ => false, fun _ => [], fun _ => []⟩ := by
    intro zz
    refine ⟨?_, ?_, ?_⟩
    · intro m
      simp
    · intro a m hm
      simp at hm
    · intro a
      exact List.nodup_nil
  obtain ⟨hinvz, himpz, hexpz, hnodz⟩ := pass2_fold_spec g z
    ((List.range g.nnode).filter (fun nid => g.zone_id nid = z))
    ⟨fun _ => false, fun _ => [], fun _ => []⟩ (hinv0 z)
    ((List.nodup_range g.nnode).filter _)
    (fun a => List.nodup_nil)
    (fun a x hx => absurd hx (List.not_mem_nil x))
  obtain ⟨hinvz', himpz', _, _⟩ := pass2_fold_spec g z'
    ((List.range g.nnode).filter (fun nid => g.zone_id nid = z'))
    ⟨fun _ => false, fun _ => [], fun _ => []⟩ (hinv0 z')
    ((List.nodup_range g.nnode).filter _)
    (fun a => List.nodup_nil)
    (fun a x hx => absurd hx (List.not_mem_nil x))
  refine ⟨?_, ?_, ?_⟩
  · show ((List.range g.nnode).filter (fun nid => g.zone_id nid = z)).Sorted (· < ·)
    exact List.Pairwise.filter _ (List.sorted_lt_range g.nnode)
  · intro zid
    constructor
    · have hperm := List.perm_insertionSort (α := ℕ) (· ≤ ·)
        ((pass2 g z ((List.range g.nnode).filter
          (fun nid => g.zone_id nid = z))).import_node_list zid)
      exact hperm.nodup_iff.mpr (hinvz.2.2 zid)
    · exact hnodz zid
  · intro x
    have hex : x ∈ (setup_zone g z).2.2 z' ↔
        x ∈ ([] : List ℕ) ∨
          (x ∈ (List.range g.nnode).filter (fun nid => g.zone_id nid = z) ∧ z' ≠ z ∧
            ∃ o, o ∈ adjTail g x ∧ g.zone_id o = z') := hexpz z' x
    have him : x ∈ (setup_zone g z').2.1 z ↔
        x ∈ ([] : List ℕ) ∨
          (g.zone_id x = z ∧ z ≠ z' ∧
            ∃ n, n ∈ (List.range g.nnode).filter (fun nid => g.zone_id nid = z') ∧
              x ∈ adjTail g n) :=
      ((List.perm_insertionSort (· ≤ ·) _).mem_iff).trans (himpz' z x)
    rw [hex, him]
    simp only [List.not_mem_nil, false_or]
    constructor
    · rintro ⟨hxL, hne, o, ho, hoz⟩
      obtain ⟨hxlt, hxz⟩ := (hmem_local z x).mp hxL
      refine ⟨hxz, fun hh => hne hh.symm, o, ?_, hsym x hxlt o ho⟩
      exact (hmem_local z' o).mpr ⟨hnb x hxlt o ho, hoz⟩
    · rintro ⟨hxz, hne, n, hnL, hxin⟩
      obtain ⟨hnlt, hnz⟩ := (hmem_local z' n).mp hnL
      exact ⟨(hmem_local z x).mpr ⟨hnb n hnlt x hxin, hxz⟩, fun hh => hne hh.symm,
        n, hsym n hnlt x hxin, hnz⟩

/-- Witness for setup_zone_spec on a 2-by-2 grid split into a left column
(zone 0: nodes 0 and 2) and a right column (zone 1: nodes 1 and 3), with
self edges leading every adjacency list. -/
theorem setup_zone_spec_witness :
    ((setup_zone ⟨4, [0, 1, 2, 1, 0, 3, 2, 0, 3, 3, 1, 2], [0, 3, 6, 9, 12],
        fun n => n % 2⟩ 0).1).Sorted (· < ·) ∧
    (∀ zid, ((setup_zone ⟨4, [0, 1, 2, 1, 0, 3, 2, 0, 3, 3, 1, 2], [0, 3, 6, 9, 12],
        fun n => n % 2⟩ 0).2.1 zid).Nodup ∧
      ((setup_zone ⟨4, [0, 1, 2, 1, 0, 3, 2, 0, 3, 3, 1, 2], [0, 3, 6, 9, 12],
        fun n => n % 2⟩ 0).2.2 zid).Nodup) ∧
    (∀ x, x ∈ (setup_zone ⟨4, [0, 1, 2, 1, 0, 3, 2, 0, 3, 3, 1, 2], [0, 3, 6, 9, 12],
        fun n => n % 2⟩ 0).2.2 1 ↔
      x ∈ (setup_zone ⟨4, [0, 1, 2, 1, 0, 3, 2, 0, 3, 3, 1, 2], [0, 3, 6, 9, 12],
        fun n => n % 2⟩ 1).2.1 0) :=
  setup_zone_spec ⟨4, [0, 1, 2, 1, 0, 3, 2, 0, 3, 3, 1, 2], [0, 3, 6, 9, 12],
    fun n => n % 2⟩ (by decide) (by decide) 0 1

/-- Witness for find_partition_optimal at the scenario weights
`[1, 1, 1, 1]` with 2 partitions (the dynamic-programming path). -/
theorem find_partition_optimal_witness :
    (find_partition [1, 1, 1, 1] 2).length = 2 ∧
    (find_partition [1, 1, 1, 1] 2).sum = ([1, 1, 1, 1] : List ℚ).length ∧
    ∀ splits : List ℕ, splits.length = 2 → splits.sum = ([1, 1, 1, 1] : List ℚ).length →
      splitsCost [1, 1, 1, 1] (find_partition [1, 1, 1, 1] 2) ≤
        splitsCost [1, 1, 1, 1] splits :=
  find_partition_optimal [1, 1, 1, 1] 2 (by norm_num) (by norm_num) (by norm_num)

end GraphRat
